import Mathlib

/-!
A verification development for the B+tree index implementation in
`src/storage/index/b_plus_tree.cpp` (template class `bustub::BPlusTree`).

The model is a shallow embedding of the source: pages live in a page store
(`Machine.pages`), identified by integer page ids, routing and lower-bound
search (`BinaryFind`), latch-crabbing descent (`FindLeafPage` with a
`Context` of a header guard flag and read/write guard sets), and the full
`GetValue` / `Insert` / `InsertIntoParent` / `Remove` / `RemoveFromParent` /
`Begin(key)` operations.  Keys are instantiated at `Nat` with the natural
order (the source comparator is an opaque strict total order, used through
`cmp` returning -1/0/1; the shipped instantiations are `GenericComparator`
over integer keys).  Values are `Nat` (opaque record ids).

Fallible behaviour (missing pages, reinterpreting a leaf as an internal
page, dereferencing an absent `std::optional` header guard, unbounded
loops on malformed page graphs) is modelled in `Except Err`; descent loops
carry explicit fuel, always instantiated with `pages.length + 1`, which is
enough for every duplicate-free page graph.
-/

set_option autoImplicit false

namespace BPlusTree

/-- Page ids (`page_id_t` in the source) are integers. -/
abbrev PageId := Int

/-- `INVALID_PAGE_ID` denotes absence of a page. -/
def INVALID_PAGE_ID : PageId := -1

/-- The key comparator: strict total order on `Nat` keys returning
-1 / 0 / +1, like `GenericComparator` over integer keys. -/
def cmp (a b : Nat) : Int :=
  if a < b then -1 else if b < a then 1 else 0

/-- Modelled from the spec: the leaf page view (`b_plus_tree_leaf_page`,
whose source is not under `src/`).  `slots` is the backing slot array
(reads beyond the written range return a default, standing for
unspecified memory), `size` the live slot count, `maxSize` the configured
`max_size`, `next` the `next_page_id_` link. -/
structure LeafPage where
  slots : List (Nat × Nat)
  size : Nat
  maxSize : Nat
  next : PageId
deriving Repr, DecidableEq

/-- Modelled from the spec: the internal page view
(`b_plus_tree_internal_page`, not under `src/`).  Slot `i` carries a key
and a child page id; the slot-0 key is conventionally unused for routing. -/
structure InternalPage where
  slots : List (Nat × PageId)
  size : Nat
  maxSize : Nat
deriving Repr, DecidableEq

/-- A page of the buffer pool, as reinterpreted by the tree. -/
inductive Page where
  | leaf : LeafPage → Page
  | internal : InternalPage → Page
deriving Repr, DecidableEq

/-- Writing slot `i` of a backing array: in-range writes update, writes
beyond the written range pad with the default (unspecified memory that is
never observed by well-formed readers). -/
def setSlot {α : Type} (xs : List α) (i : Nat) (a : α) (d : α) : List α :=
  if i < xs.length then xs.set i a
  else xs ++ List.replicate (i - xs.length) d ++ [a]

def LeafPage.keyAt (p : LeafPage) (i : Nat) : Nat := (p.slots.getD i (0, 0)).1

def LeafPage.valueAt (p : LeafPage) (i : Nat) : Nat := (p.slots.getD i (0, 0)).2

def LeafPage.setAt (p : LeafPage) (i : Nat) (k v : Nat) : LeafPage :=
  { p with slots := setSlot p.slots i (k, v) (0, 0) }

/-- Modelled from the spec: derived `min_size = ⌈max_size / 2⌉` for leaves
(the page-view classes are not under `src/`). -/
def LeafPage.minSize (p : LeafPage) : Nat := (p.maxSize + 1) / 2

def InternalPage.keyAt (p : InternalPage) (i : Nat) : Nat :=
  (p.slots.getD i (0, INVALID_PAGE_ID)).1

def InternalPage.valueAt (p : InternalPage) (i : Nat) : PageId :=
  (p.slots.getD i (0, INVALID_PAGE_ID)).2

def InternalPage.setKeyAt (p : InternalPage) (i : Nat) (k : Nat) : InternalPage :=
  { p with slots := setSlot p.slots i (k, (p.slots.getD i (0, INVALID_PAGE_ID)).2) (0, INVALID_PAGE_ID) }

def InternalPage.setValueAt (p : InternalPage) (i : Nat) (v : PageId) : InternalPage :=
  { p with slots := setSlot p.slots i ((p.slots.getD i (0, INVALID_PAGE_ID)).1, v) (0, INVALID_PAGE_ID) }

/-- Modelled from the spec: derived `min_size = ⌈max_size / 2⌉` for
internal pages. -/
def InternalPage.minSize (p : InternalPage) : Nat := (p.maxSize + 1) / 2

/-- Modelled from the spec: `value_index(child_id)` — linear search
returning the slot whose child equals the given id (first match; the
behaviour on an absent id is unspecified and modelled as `size`). -/
def InternalPage.valueIndex (p : InternalPage) (pid : PageId) : Nat :=
  match (List.range p.size).find? (fun i => p.valueAt i = pid) with
  | some i => i
  | none => p.size

def Page.isLeafPage : Page → Bool
  | .leaf _ => true
  | .internal _ => false

def Page.getSize : Page → Nat
  | .leaf l => l.size
  | .internal n => n.size

def Page.getMaxSize : Page → Nat
  | .leaf l => l.maxSize
  | .internal n => n.maxSize

def Page.getMinSize : Page → Nat
  | .leaf l => l.minSize
  | .internal n => n.minSize

/-- The whole tree state: the page store of the buffer pool, the header
page's `root_page_id_`, the allocator's next fresh page id, and the two
construction parameters. -/
structure Machine where
  pages : List (PageId × Page)
  rootId : PageId
  nextPid : PageId
  leafMax : Nat
  internalMax : Nat
deriving Repr, DecidableEq

/-- Association-list update: replaces the entry for `pid` in place, or
appends a fresh entry. -/
def psUpdate : List (PageId × Page) → PageId → Page → List (PageId × Page)
  | [], pid, pg => [(pid, pg)]
  | (q, old) :: rest, pid, pg =>
      if q = pid then (pid, pg) :: rest else (q, old) :: psUpdate rest pid pg

/-- `FetchPage*`: look a page up in the pool. -/
def Machine.find (m : Machine) (pid : PageId) : Option Page :=
  match m.pages.find? (fun e => e.1 = pid) with
  | some e => some e.2
  | none => none

def Machine.setPage (m : Machine) (pid : PageId) (pg : Page) : Machine :=
  { m with pages := psUpdate m.pages pid pg }

/-- `NewPageGuarded`: allocate a fresh page id. -/
def Machine.alloc (m : Machine) : PageId × Machine :=
  (m.nextPid, { m with nextPid := m.nextPid + 1 })

/-- The constructor: header page initialized with
`root_page_id_ = INVALID_PAGE_ID`. -/
def mkTree (leafMax internalMax : Nat) : Machine :=
  { pages := [], rootId := INVALID_PAGE_ID, nextPid := 1,
    leafMax := leafMax, internalMax := internalMax }

inductive Operation where
  | Search
  | Insertion
  | Removal
deriving Repr, DecidableEq

/-- Failure modes of the model: `stuck` covers behaviour that is undefined
in the C++ source (missing page, reinterpreting a page as the wrong view,
out-of-range deque access, exhausted descent fuel); `headerFault` is
specifically a dereference of the context's header guard optional while it
is disengaged. -/
inductive Err where
  | stuck
  | headerFault
deriving Repr, DecidableEq

deriving instance DecidableEq for Except

/-- The per-operation descent context: header write guard (held or not),
the root id captured under the header latch, and the read/write guard sets
(front = closest to the root). -/
structure Context where
  headerHeld : Bool
  rootPageId : PageId
  readSet : List PageId
  writeSet : List PageId
deriving Repr, DecidableEq

def Context.isRootPage (ctx : Context) (pid : PageId) : Bool :=
  pid = ctx.rootPageId

/-- `BPlusTree::IsSafePage`. -/
def IsSafePage (pg : Page) (op : Operation) (isRootPage : Bool) : Bool :=
  match op with
  | .Search => true
  | .Insertion =>
      if pg.isLeafPage then pg.getSize + 1 < pg.getMaxSize
      else pg.getSize < pg.getMaxSize
  | .Removal =>
      if isRootPage then
        if pg.isLeafPage then decide (pg.getSize > 1) else decide (pg.getSize > 2)
      else decide (pg.getSize > pg.getMinSize)

/-- The shared binary-search loop of both `BinaryFind` overloads:
`while (l < r) { mid = (l+r+1)>>1; if cmp(key(mid),k) ≠ 1 then l = mid else
r = mid-1 }`, returning the final `r` (= final `l`).  The loop narrows
`r - l` by at least one per iteration, so the extra structural `gas`
argument (always called with `gas ≥ r - l`) never runs out. -/
def bfLoop (key : Nat → Nat) (k : Nat) : Nat → Nat → Nat → Nat
  | l, r, gas =>
    if l < r then
      match gas with
      | 0 => r
      | gas + 1 =>
        let mid := (l + r + 1) / 2
        if cmp (key mid) k ≠ 1 then bfLoop key k mid r gas
        else bfLoop key k l (mid - 1) gas
    else r

/-- `BPlusTree::BinaryFind` on a leaf: the largest index `i ∈ [0, size)`
with `cmp(key[i], k) ≤ 0`, or `-1` if there is none (lower bound). -/
def BinaryFindLeaf (p : LeafPage) (k : Nat) : Int :=
  if p.size = 0 then -1
  else
    let r := bfLoop p.keyAt k 0 (p.size - 1) p.size
    if cmp (p.keyAt r) k = 1 then -1 else (r : Int)

/-- `BPlusTree::BinaryFind` on an internal page: the largest slot
`i ∈ [1, size)` with `cmp(key[i], k) ≤ 0`, or `0` if there is none (the
descent target for `k`).  For `size ≤ 1` the loop body never runs and the
result is `0` (the final check reads the unused slot-0 key but sets the
result to `0` on either outcome). -/
def BinaryFindInternal (p : InternalPage) (k : Nat) : Int :=
  if p.size ≤ 1 then 0
  else
    let r := bfLoop p.keyAt k 1 (p.size - 1) p.size
    if cmp (p.keyAt r) k = 1 then 0 else (r : Int)

/-- `BPlusTree::FindLeafPage`: descend from the back of the guard set to
the leaf that routes `key`.  For `Search`, push read guards.  For
`Insertion`/`Removal`, push a write guard on the routed child and, if the
child is safe (with `is_root_page = false`), pop every earlier write guard
(`while (write_set_.size() > 1) pop_front()`); the header guard is not
touched here. -/
def FindLeafPage (m : Machine) (key : Nat) (op : Operation) (ctx : Context) :
    Nat → Except Err Context
  | 0 => .error .stuck
  | fuel + 1 =>
    match op with
    | .Search =>
      match ctx.readSet.getLast? with
      | none => .error .stuck
      | some pid =>
        match m.find pid with
        | some (.leaf _) => .ok ctx
        | some (.internal nd) =>
            let nextPageId := nd.valueAt (BinaryFindInternal nd key).toNat
            FindLeafPage m key op { ctx with readSet := ctx.readSet ++ [nextPageId] } fuel
        | none => .error .stuck
    | _ =>
      match ctx.writeSet.getLast? with
      | none => .error .stuck
      | some pid =>
        match m.find pid with
        | some (.leaf _) => .ok ctx
        | some (.internal nd) =>
            let nextPageId := nd.valueAt (BinaryFindInternal nd key).toNat
            match m.find nextPageId with
            | none => .error .stuck
            | some childPg =>
                let ws :=
                  if IsSafePage childPg op false then [nextPageId]
                  else ctx.writeSet ++ [nextPageId]
                FindLeafPage m key op { ctx with writeSet := ws } fuel
        | none => .error .stuck

/-- Iterations of the loop `for (i = hi; i > lo; --i) a[i] = a[i-1]`,
counted down by the first argument (the number of remaining iterations). -/
def shiftUpAux {α : Type} (d : α) : Nat → List α → Nat → List α
  | 0, xs, _ => xs
  | n + 1, xs, hi => shiftUpAux d n (setSlot xs hi (xs.getD (hi - 1) d) d) (hi - 1)

/-- The loop `for (i = hi; i > lo; --i) a[i] = a[i-1]` (shift slots one to
the right, reading each source slot before it is overwritten): `hi - lo`
iterations starting at `i = hi`. -/
def shiftUpLoop {α : Type} (d : α) (xs : List α) (lo hi : Nat) : List α :=
  shiftUpAux d (hi - lo) xs hi

/-- Iterations of the loop `for (i = lo; i < hi; ++i) a[i-1] = a[i]`. -/
def shiftDownAux {α : Type} (d : α) : Nat → List α → Nat → List α
  | 0, xs, _ => xs
  | n + 1, xs, lo => shiftDownAux d n (setSlot xs (lo - 1) (xs.getD lo d) d) (lo + 1)

/-- The loop `for (i = lo; i < hi; ++i) a[i-1] = a[i]` (shift slots one to
the left): `hi - lo` iterations starting at `i = lo`. -/
def shiftDownLoop {α : Type} (d : α) (xs : List α) (lo hi : Nat) : List α :=
  shiftDownAux d (hi - lo) xs lo

/-- The loop `for (j = 0; j < n; ++j) dst[dstStart+j] = src[srcStart+j]`
(copy a slot range between two distinct pages). -/
def copyRange {α : Type} (d : α) (src dst : List α) (dstStart srcStart n : Nat) : List α :=
  match n with
  | 0 => dst
  | n' + 1 =>
      copyRange d src (setSlot dst dstStart (src.getD srcStart d) d)
        (dstStart + 1) (srcStart + 1) n'

/-- Leaf insertion step of `BPlusTree::Insert` (lines 182-187):
`IncreaseSize(1); for (i = GetSize(); i > index; --i) SetAt(i, at(i-1));
SetAt(index, key, value)`. -/
def leafInsertAt (lp : LeafPage) (index : Nat) (k v : Nat) : LeafPage :=
  let arr := shiftUpLoop (0, 0) lp.slots index (lp.size + 1)
  { lp with size := lp.size + 1, slots := setSlot arr index (k, v) (0, 0) }

/-- `BPlusTree::GetValue`: point lookup; `some v` models returning `true`
with `v` appended to the result vector. -/
def GetValue (m : Machine) (key : Nat) : Except Err (Option Nat) :=
  if m.rootId = INVALID_PAGE_ID then .ok none
  else do
    let ctx0 : Context :=
      { headerHeld := false, rootPageId := m.rootId,
        readSet := [m.rootId], writeSet := [] }
    let ctx ← FindLeafPage m key .Search ctx0 (m.pages.length + 1)
    match ctx.readSet.getLast? with
    | none => .error .stuck
    | some pid =>
      match m.find pid with
      | some (.leaf lp) =>
          let index := BinaryFindLeaf lp key
          if index = -1 ∨ cmp (lp.keyAt index.toNat) key ≠ 0 then .ok none
          else .ok (some (lp.valueAt index.toNat))
      | _ => .error .stuck

/-- The internal split of `BPlusTree::InsertIntoParent` (lines 248-290),
run when the parent is full: allocate `P'` (`np`), set its size to
`max_size + 1 - min_size`, compute the logical insert position
`pos = BinaryFind(parent, key) + 1`, and distribute the slots by the three
cases `pos < min`, `pos == min`, `pos > min`; finally `P.SetSize(min)`.
Returns the updated `P` and the new page `P'` (allocation happens at the
call site). -/
def SplitInternal (parent : InternalPage) (key : Nat) (newChildId : PageId)
    (internalMax : Nat) : InternalPage × InternalPage :=
  let d : Nat × PageId := (0, INVALID_PAGE_ID)
  let np1 : InternalPage :=
    { slots := [], size := parent.maxSize + 1 - parent.minSize, maxSize := internalMax }
  let pos := (BinaryFindInternal parent key + 1).toNat
  if pos < parent.minSize then
    let a1 := copyRange d parent.slots np1.slots 1 parent.minSize (parent.size - parent.minSize)
    let a2 := setSlot a1 0 (parent.slots.getD (parent.minSize - 1) d) d
    let b1 := shiftUpLoop d parent.slots pos (parent.minSize - 1)
    let b2 := setSlot b1 pos (key, newChildId) d
    ({ parent with slots := b2, size := parent.minSize }, { np1 with slots := a2 })
  else if pos = parent.minSize then
    let a1 := copyRange d parent.slots np1.slots 1 parent.minSize (parent.size - parent.minSize)
    let a2 := setSlot a1 0 (key, newChildId) d
    ({ parent with size := parent.minSize }, { np1 with slots := a2 })
  else
    let a1 := copyRange d parent.slots np1.slots 0 parent.minSize (parent.size - parent.minSize)
    let pos2 := pos - parent.minSize
    let a2 := shiftUpLoop d a1 pos2 (np1.size - 1)
    let a3 := setSlot a2 pos2 (key, newChildId) d
    ({ parent with size := parent.minSize }, { np1 with slots := a3 })

/-- `BPlusTree::InsertIntoParent(key, new_child_id, ctx, index)`: insert a
separator into the ancestor at `write_set_[index]`, splitting and recursing
upward while the ancestor is full; `index < 0` allocates a new root and
publishes it in the header page (dereferencing the header guard optional —
a `headerFault` if it is disengaged). -/
def InsertIntoParentAux (ctx : Context) (gas : Nat) (m : Machine) (key : Nat)
    (newChildId : PageId) (index : Int) : Except Err Machine :=
  if index < 0 then
    let (newRootId, m1) := m.alloc
    match ctx.writeSet.get? (index + 1).toNat with
    | none => .error .stuck
    | some oldRootPid =>
      let np : InternalPage :=
        ((({ slots := [], size := 2, maxSize := m.internalMax } : InternalPage).setValueAt
            0 oldRootPid).setKeyAt 1 key).setValueAt 1 newChildId
      if ctx.headerHeld then
        .ok { m1.setPage newRootId (.internal np) with rootId := newRootId }
      else .error .headerFault
  else
    match ctx.writeSet.get? index.toNat with
    | none => .error .stuck
    | some ppid =>
      match m.find ppid with
      | some (.internal parent) =>
        if parent.size ≠ parent.maxSize then
          let idx := (BinaryFindInternal parent key + 1).toNat
          let arr := shiftUpLoop (0, INVALID_PAGE_ID) parent.slots idx parent.size
          let p2 : InternalPage :=
            { parent with
              size := parent.size + 1
              slots := setSlot arr idx (key, newChildId) (0, INVALID_PAGE_ID) }
          .ok (m.setPage ppid (.internal p2))
        else
          match gas with
          | 0 => .error .stuck
          | gas + 1 =>
            let (npid, m1) := m.alloc
            let pr := SplitInternal parent key newChildId m.internalMax
            let m2 := (m1.setPage ppid (.internal pr.1)).setPage npid (.internal pr.2)
            InsertIntoParentAux ctx gas m2 (pr.2.keyAt 0) npid (index - 1)
      | _ => .error .stuck

/-- Entry point for `InsertIntoParent`: the recursion decrements `index`
by one per step and stops once it is negative, so `(index + 1).toNat`
structural-recursion gas never runs out. -/
def InsertIntoParent (m : Machine) (ctx : Context) (key : Nat)
    (newChildId : PageId) (index : Int) : Except Err Machine :=
  InsertIntoParentAux ctx (index + 1).toNat m key newChildId index

/-- `BPlusTree::Insert(key, value)`: returns `false` iff the key already
exists; splits the leaf (and recursively the ancestors) on overflow. -/
def Insert (m : Machine) (key value : Nat) : Except Err (Machine × Bool) :=
  if m.rootId = INVALID_PAGE_ID then
    let (rootPid, m1) := m.alloc
    let lp : LeafPage :=
      ({ slots := [], size := 1, maxSize := m.leafMax,
         next := INVALID_PAGE_ID } : LeafPage).setAt 0 key value
    .ok ({ m1.setPage rootPid (.leaf lp) with rootId := rootPid }, true)
  else
    match m.find m.rootId with
    | none => .error .stuck
    | some rootPg =>
      let ctx0 : Context :=
        { headerHeld := true, rootPageId := m.rootId, readSet := [],
          writeSet := [m.rootId] }
      let ctx1 :=
        if IsSafePage rootPg .Insertion true then { ctx0 with headerHeld := false }
        else ctx0
      do
      let ctx ← FindLeafPage m key .Insertion ctx1 (m.pages.length + 1)
      match ctx.writeSet.getLast? with
      | none => .error .stuck
      | some leafPid =>
        match m.find leafPid with
        | some (.leaf lp) =>
          let index := BinaryFindLeaf lp key
          if index ≠ -1 ∧ cmp (lp.keyAt index.toNat) key = 0 then
            .ok (m, false)
          else
            let lp1 := leafInsertAt lp (index + 1).toNat key value
            if lp1.size < lp1.maxSize then
              .ok (m.setPage leafPid (.leaf lp1), true)
            else
              -- leaf split, lines 194-211: note the next-pointer order:
              -- `L.SetNextPageId(R)` happens before `R.SetNextPageId(L.GetNextPageId())`
              let (npid, m1) := m.alloc
              let lp2 := { lp1 with next := npid }
              let nl : LeafPage :=
                { slots := []
                  size := lp2.size - lp2.minSize
                  maxSize := m.leafMax
                  next := lp2.next }
              let arr :=
                copyRange (0, 0) lp2.slots nl.slots 0 lp2.minSize
                  (lp2.size - lp2.minSize)
              let nl2 := { nl with slots := arr }
              let lp3 := { lp2 with size := lp2.minSize }
              let m2 := (m1.setPage leafPid (.leaf lp3)).setPage npid (.leaf nl2)
              let m3 ← InsertIntoParent m2 ctx (nl2.keyAt 0) npid
                ((ctx.writeSet.length : Int) - 2)
              .ok (m3, true)
        | _ => .error .stuck

/-- `BPlusTree::RemoveFromParent(valueIndex, ctx, index)`: delete slot
`valueIndex` from the ancestor at `write_set_[index]`; on underflow either
collapse the root (dereferencing the header guard optional — `headerFault`
if disengaged), or merge with / borrow from a sibling, recursing upward on
merge.  Fetching a write latch on a page already held deadlocks in the
source and is modelled as `stuck`. -/
def RemoveFromParentAux (ctx : Context) (gas : Nat) (m : Machine) (valueIndex : Nat)
    (index : Int) : Except Err Machine :=
  if index < 0 then .error .stuck
  else
    match ctx.writeSet.get? index.toNat with
    | none => .error .stuck
    | some pid =>
    match m.find pid with
    | some (.internal page0) =>
      let d : Nat × PageId := (0, INVALID_PAGE_ID)
      let page1 : InternalPage :=
        { page0 with
          slots := shiftDownLoop d page0.slots (valueIndex + 1) page0.size
          size := page0.size - 1 }
      let m1 := m.setPage pid (.internal page1)
      if page1.size ≥ page1.minSize then .ok m1
      else if ctx.isRootPage pid then
        if page1.size = 1 then
          if ctx.headerHeld then .ok { m1 with rootId := page1.valueAt 0 }
          else .error .headerFault
        else .ok m1
      else
        match ctx.writeSet.get? (index - 1).toNat with
        | none => .error .stuck
        | some ppid =>
        match m1.find ppid with
        | some (.internal parent) =>
          let pos := parent.valueIndex pid
          if pos < parent.size - 1 then
            let rbPid := parent.valueAt (pos + 1)
            if ctx.writeSet.contains rbPid then .error .stuck else
            match m1.find rbPid with
            | some (.internal rb) =>
              let mergeSize := rb.size + page1.size
              if mergeSize ≤ page1.maxSize then
                match gas with
                | 0 => .error .stuck
                | gas + 1 =>
                  let arr2 := copyRange d rb.slots page1.slots page1.size 0 rb.size
                  let page2 : InternalPage := { page1 with slots := arr2, size := mergeSize }
                  RemoveFromParentAux ctx gas (m1.setPage pid (.internal page2)) (pos + 1) (index - 1)
              else
                let page2 : InternalPage :=
                  { page1 with
                    size := page1.size + 1
                    slots := setSlot page1.slots page1.size (rb.slots.getD 0 d) d }
                let rb2 : InternalPage :=
                  { rb with
                    slots := shiftDownLoop d rb.slots 1 rb.size
                    size := rb.size - 1 }
                let parent2 := parent.setKeyAt (pos + 1) (rb2.keyAt 0)
                .ok (((m1.setPage pid (.internal page2)).setPage rbPid
                  (.internal rb2)).setPage ppid (.internal parent2))
            | _ => .error .stuck
          else
            let lbPid := parent.valueAt (pos - 1)
            if ctx.writeSet.contains lbPid then .error .stuck else
            match m1.find lbPid with
            | some (.internal lb) =>
              let mergeSize := lb.size + page1.size
              if mergeSize ≤ lb.maxSize then
                match gas with
                | 0 => .error .stuck
                | gas + 1 =>
                  let arr2 := copyRange d page1.slots lb.slots lb.size 0 page1.size
                  let lb2 : InternalPage := { lb with slots := arr2, size := mergeSize }
                  RemoveFromParentAux ctx gas (m1.setPage lbPid (.internal lb2)) pos (index - 1)
              else
                let arr2 := shiftUpLoop d page1.slots 0 page1.size
                let page2 : InternalPage :=
                  { page1 with
                    size := page1.size + 1
                    slots := setSlot arr2 0 (lb.slots.getD (lb.size - 1) d) d }
                let lb2 := { lb with size := lb.size - 1 }
                let parent2 := parent.setKeyAt pos (page2.keyAt 0)
                .ok (((m1.setPage pid (.internal page2)).setPage lbPid
                  (.internal lb2)).setPage ppid (.internal parent2))
            | _ => .error .stuck
        | _ => .error .stuck
    | _ => .error .stuck

/-- Entry point for `RemoveFromParent`: like `InsertIntoParent`, the
recursion decrements `index` by one per step, so `(index + 1).toNat`
structural-recursion gas never runs out. -/
def RemoveFromParent (m : Machine) (ctx : Context) (valueIndex : Nat)
    (index : Int) : Except Err Machine :=
  RemoveFromParentAux ctx (index + 1).toNat m valueIndex index

/-- `BPlusTree::Remove(key)`: delete the key if present; on leaf underflow
either collapse the root, or merge with / borrow from a sibling leaf and
fix the parent via `RemoveFromParent`. -/
def Remove (m : Machine) (key : Nat) : Except Err Machine :=
  if m.rootId = INVALID_PAGE_ID then .ok m
  else
    match m.find m.rootId with
    | none => .error .stuck
    | some rootPg =>
      let ctx0 : Context :=
        { headerHeld := true, rootPageId := m.rootId, readSet := [],
          writeSet := [m.rootId] }
      let ctx1 :=
        if IsSafePage rootPg .Removal true then { ctx0 with headerHeld := false }
        else ctx0
      do
      let ctx ← FindLeafPage m key .Removal ctx1 (m.pages.length + 1)
      match ctx.writeSet.getLast? with
      | none => .error .stuck
      | some leafPid =>
      match m.find leafPid with
      | some (.leaf lp) =>
        let pos := BinaryFindLeaf lp key
        if pos = -1 ∨ cmp (lp.keyAt pos.toNat) key ≠ 0 then .ok m
        else
          let d : Nat × Nat := (0, 0)
          let lp1 : LeafPage :=
            { lp with
              slots := shiftDownLoop d lp.slots (pos.toNat + 1) lp.size
              size := lp.size - 1 }
          let m1 := m.setPage leafPid (.leaf lp1)
          if lp1.size ≥ lp1.minSize then .ok m1
          else if ctx.isRootPage leafPid then
            if lp1.size = 0 then
              if ctx.headerHeld then .ok { m1 with rootId := INVALID_PAGE_ID }
              else .error .headerFault
            else .ok m1
          else
            match ctx.writeSet.get? (ctx.writeSet.length - 2) with
            | none => .error .stuck
            | some ppid =>
            match m1.find ppid with
            | some (.internal parent) =>
              let index := BinaryFindInternal parent key
              if index < (parent.size : Int) - 1 then
                let rbPid := parent.valueAt (index + 1).toNat
                if ctx.writeSet.contains rbPid then .error .stuck else
                match m1.find rbPid with
                | some (.leaf rb) =>
                  let mergeSize := rb.size + lp1.size
                  if mergeSize < lp1.maxSize then
                    let arr2 := copyRange d rb.slots lp1.slots lp1.size 0 rb.size
                    let lp2 : LeafPage :=
                      { lp1 with
                        slots := arr2
                        size := mergeSize
                        next := rb.next }
                    RemoveFromParent (m1.setPage leafPid (.leaf lp2)) ctx
                      (index + 1).toNat ((ctx.writeSet.length : Int) - 2)
                  else
                    let lp2 : LeafPage :=
                      { lp1 with
                        size := lp1.size + 1
                        slots := setSlot lp1.slots lp1.size (rb.slots.getD 0 d) d }
                    let rb2 : LeafPage :=
                      { rb with
                        slots := shiftDownLoop d rb.slots 1 rb.size
                        size := rb.size - 1 }
                    let parent2 := parent.setKeyAt (index + 1).toNat (rb2.keyAt 0)
                    .ok (((m1.setPage leafPid (.leaf lp2)).setPage rbPid
                      (.leaf rb2)).setPage ppid (.internal parent2))
                | _ => .error .stuck
              else
                let lbPid := parent.valueAt (index - 1).toNat
                if ctx.writeSet.contains lbPid then .error .stuck else
                match m1.find lbPid with
                | some (.leaf lb) =>
                  let mergeSize := lb.size + lp1.size
                  if mergeSize < lb.maxSize then
                    let arr2 := copyRange d lp1.slots lb.slots lb.size 0 lp1.size
                    let lb2 : LeafPage :=
                      { lb with
                        slots := arr2
                        size := mergeSize
                        next := lp1.next }
                    RemoveFromParent (m1.setPage lbPid (.leaf lb2)) ctx
                      index.toNat ((ctx.writeSet.length : Int) - 2)
                  else
                    let arr2 := shiftUpLoop d lp1.slots 0 lp1.size
                    let lp2 : LeafPage :=
                      { lp1 with
                        size := lp1.size + 1
                        slots := setSlot arr2 0 (lb.slots.getD (lb.size - 1) d) d }
                    let lb2 := { lb with size := lb.size - 1 }
                    let parent2 := parent.setKeyAt index.toNat (lp2.keyAt 0)
                    .ok (((m1.setPage leafPid (.leaf lp2)).setPage lbPid
                      (.leaf lb2)).setPage ppid (.internal parent2))
                | _ => .error .stuck
            | _ => .error .stuck
      | _ => .error .stuck

/-- A forward-iterator position `(leaf_page_id, slot_index)`. -/
structure IndexIterator where
  pageId : PageId
  slotIndex : Int
deriving Repr, DecidableEq

/-- `BPlusTree::End()`: the end sentinel `(-1, -1)`. -/
def EndIterator : IndexIterator := { pageId := -1, slotIndex := -1 }

/-- The descent loop of `BPlusTree::Begin(key)` (lines 598-617): route on
`key` through internals (with the dead `slot_num == -1` check), then
position at `BinaryFind(leaf, key)`, returning `End()` when that is -1. -/
def descendBegin (m : Machine) (key : Nat) (pid : PageId) :
    Nat → Except Err IndexIterator
  | 0 => .error .stuck
  | fuel + 1 =>
    match m.find pid with
    | some (.internal nd) =>
        let slotNum := BinaryFindInternal nd key
        if slotNum = -1 then .ok EndIterator
        else descendBegin m key (nd.valueAt slotNum.toNat) fuel
    | some (.leaf lp) =>
        let slotNum := BinaryFindLeaf lp key
        if slotNum ≠ -1 then .ok { pageId := pid, slotIndex := slotNum }
        else .ok EndIterator
    | none => .error .stuck

/-- `BPlusTree::Begin(key)`: an iterator positioned by lower-bound search
for `key`, or `End()`. -/
def BeginKey (m : Machine) (key : Nat) : Except Err IndexIterator :=
  if m.rootId = INVALID_PAGE_ID then .ok EndIterator
  else descendBegin m key m.rootId (m.pages.length + 1)

/-- The test driver `InsertFromFile`, on an explicit key list: each key is
inserted with itself as the record id. -/
def InsertFromList (m : Machine) : List Nat → Except Err Machine
  | [] => .ok m
  | k :: rest => do
      let r ← Insert m k k
      InsertFromList r.1 rest

/-- The test driver `RemoveFromFile`, on an explicit key list. -/
def RemoveFromList (m : Machine) : List Nat → Except Err Machine
  | [] => .ok m
  | k :: rest => do
      let m1 ← Remove m k
      RemoveFromList m1 rest

/-! ### Concrete scenario states (`leaf_max_size = 4`, `internal_max_size = 4`) -/

/-- The tree after inserting 1, 2, 3 into a fresh tree: a single root leaf
(page 1) holding `[1, 2, 3]` with `next = INVALID_PAGE_ID`. -/
def tree123 : Machine :=
  match InsertFromList (mkTree 4 4) [1, 2, 3] with
  | .ok m => m
  | .error _ => mkTree 4 4

/-- The tree after additionally inserting 4: the root leaf reaches
`size = max_size = 4` and splits. -/
def tree1234 : Machine :=
  match Insert tree123 4 4 with
  | .ok r => r.1
  | .error _ => tree123

/-! ## C1 -/

/-- C1, evidence of the divergence: the claim says that when `Insert`
splits leaf `L` into a new leaf `R`, afterwards `R.next_page_id` equals
the value `L.next_page_id` had immediately before the split.  In the
source the assignments run in the wrong order
(`L.SetNextPageId(R)` at line 199 precedes
`R.SetNextPageId(L.GetNextPageId())` at line 202), so `R.next_page_id`
ends up equal to `R`'s own page id.  Concretely: before inserting 4 the
only leaf (page 1) holds `[1,2,3]` with `next = INVALID_PAGE_ID`; the
insert of 4 splits it, allocating `R` = page 2, and afterwards page 2 is
the leaf `[3,4]` with `next = 2` — its own page id, a self-loop — instead
of `INVALID_PAGE_ID`. -/
theorem c1_split_next_selfloop :
    tree123.find 1 =
      some (.leaf { slots := [(1, 1), (2, 2), (3, 3), (0, 0)], size := 3,
                    maxSize := 4, next := INVALID_PAGE_ID })
    ∧ Insert tree123 4 4 = .ok (tree1234, true)
    ∧ tree1234.find 2 =
        some (.leaf { slots := [(3, 3), (4, 4)], size := 2, maxSize := 4, next := 2 })
    ∧ ((2 : PageId) ≠ INVALID_PAGE_ID) := by
  refine ⟨by decide, by decide, by decide, by decide⟩

/-! ## C2 -/

/-- C2, evidence of the divergence: the claim says that after every
completed `Insert` the leaf linked list, followed from the leftmost leaf,
visits every leaf exactly once and ends at a leaf whose `next_page_id` is
`INVALID_PAGE_ID`.  After the four inserts 1, 2, 3, 4 (which split the
root leaf) the store holds two leaves — page 1 (`[1,2]`, `next = 2`) and
page 2 (`[3,4]`, `next = 2`, a self-loop) — and no leaf at all has
`next_page_id = INVALID_PAGE_ID`, so the chain from the leftmost leaf
revisits page 2 forever and never terminates. -/
theorem c2_leaf_chain_broken :
    InsertFromList (mkTree 4 4) [1, 2, 3, 4] = .ok tree1234
    ∧ tree1234.find 1 =
        some (.leaf { slots := [(1, 1), (2, 2), (3, 3), (4, 4), (0, 0)], size := 2,
                      maxSize := 4, next := 2 })
    ∧ (tree1234.pages.all fun e =>
        match e.2 with
        | .leaf lp => decide (lp.next ≠ INVALID_PAGE_ID)
        | .internal _ => true) = true := by
  refine ⟨by decide, by decide, by decide⟩

/-! ## C5, counterexample part -/

/-- C5, counterexample: the claim says `Begin(k)` returns the end iterator
if and only if `k` is greater than every key in the tree.  In `tree1234`
the stored keys are 1, 2, 3, 4, all smaller than 5, yet `Begin(5)`
returns the non-end iterator `(page 2, slot 1)` (the lower bound — the
largest key `≤ 5` — is key 4); and conversely `Begin(0)` returns the end
iterator even though 0 is not greater than any stored key. -/
theorem c5_begin_end_iff_cex :
    BeginKey tree1234 5 = .ok { pageId := 2, slotIndex := 1 }
    ∧ ({ pageId := 2, slotIndex := 1 } : IndexIterator) ≠ EndIterator
    ∧ (tree1234.pages.all fun e =>
        match e.2 with
        | .leaf lp => (lp.slots.take lp.size).all (fun s => s.1 < 5)
        | .internal _ => true) = true
    ∧ BeginKey tree1234 0 = .ok EndIterator := by
  refine ⟨by decide, by decide, by decide, by decide⟩

/-- The tree after inserting 1..8 into a fresh tree, written out
explicitly (`tree8_built` checks it is what the eight inserts build):
the root (page 3) is a full internal page (`size = max_size = 4`), hence
unsafe for insertion, while every leaf has size 2 and is safe. -/
def tree8 : Machine :=
  { pages := [
      (1, .leaf { slots := [(1, 1), (2, 2), (3, 3), (4, 4), (0, 0)], size := 2, maxSize := 4, next := 2 }),
      (2, .leaf { slots := [(3, 3), (4, 4), (5, 5), (6, 6), (0, 0)], size := 2, maxSize := 4, next := 4 }),
      (3, .internal { slots := [(0, 1), (3, 2), (5, 4), (7, 5)], size := 4, maxSize := 4 }),
      (4, .leaf { slots := [(5, 5), (6, 6), (7, 7), (8, 8), (0, 0)], size := 2, maxSize := 4, next := 5 }),
      (5, .leaf { slots := [(7, 7), (8, 8)], size := 2, maxSize := 4, next := 5 })],
    rootId := 3, nextPid := 6, leafMax := 4, internalMax := 4 }

/-- `Except.bind` on a success reduces to the continuation. -/
theorem exceptBindOk {ε α β : Type} (a : α) (f : α → Except ε β) :
    (Except.ok a >>= f : Except ε β) = f a := rfl

/-- Intermediate state of the 1..8 insert sequence, after key 1. -/
def tree8s1 : Machine :=
  { pages := [(1, .leaf { slots := [(1, 1)], size := 1, maxSize := 4, next := -1 })],
    rootId := 1, nextPid := 2, leafMax := 4, internalMax := 4 }

/-- Intermediate state of the 1..8 insert sequence, after key 2. -/
def tree8s2 : Machine :=
  { pages := [(1, .leaf { slots := [(1, 1), (2, 2), (0, 0)], size := 2, maxSize := 4, next := -1 })],
    rootId := 1, nextPid := 2, leafMax := 4, internalMax := 4 }

/-- Intermediate state of the 1..8 insert sequence, after key 3. -/
def tree8s3 : Machine :=
  { pages := [(1, .leaf { slots := [(1, 1), (2, 2), (3, 3), (0, 0)], size := 3, maxSize := 4, next := -1 })],
    rootId := 1, nextPid := 2, leafMax := 4, internalMax := 4 }

/-- Intermediate state of the 1..8 insert sequence, after key 4. -/
def tree8s4 : Machine :=
  { pages := [
      (1, .leaf { slots := [(1, 1), (2, 2), (3, 3), (4, 4), (0, 0)], size := 2, maxSize := 4, next := 2 }),
      (2, .leaf { slots := [(3, 3), (4, 4)], size := 2, maxSize := 4, next := 2 }),
      (3, .internal { slots := [(0, 1), (3, 2)], size := 2, maxSize := 4 })],
    rootId := 3, nextPid := 4, leafMax := 4, internalMax := 4 }

/-- Intermediate state of the 1..8 insert sequence, after key 5. -/
def tree8s5 : Machine :=
  { pages := [
      (1, .leaf { slots := [(1, 1), (2, 2), (3, 3), (4, 4), (0, 0)], size := 2, maxSize := 4, next := 2 }),
      (2, .leaf { slots := [(3, 3), (4, 4), (5, 5), (0, 0)], size := 3, maxSize := 4, next := 2 }),
      (3, .internal { slots := [(0, 1), (3, 2)], size := 2, maxSize := 4 })],
    rootId := 3, nextPid := 4, leafMax := 4, internalMax := 4 }

/-- Intermediate state of the 1..8 insert sequence, after key 6. -/
def tree8s6 : Machine :=
  { pages := [
      (1, .leaf { slots := [(1, 1), (2, 2), (3, 3), (4, 4), (0, 0)], size := 2, maxSize := 4, next := 2 }),
      (2, .leaf { slots := [(3, 3), (4, 4), (5, 5), (6, 6), (0, 0)], size := 2, maxSize := 4, next := 4 }),
      (3, .internal { slots := [(0, 1), (3, 2), (5, 4)], size := 3, maxSize := 4 }),
      (4, .leaf { slots := [(5, 5), (6, 6)], size := 2, maxSize := 4, next := 4 })],
    rootId := 3, nextPid := 5, leafMax := 4, internalMax := 4 }

/-- Intermediate state of the 1..8 insert sequence, after key 7. -/
def tree8s7 : Machine :=
  { pages := [
      (1, .leaf { slots := [(1, 1), (2, 2), (3, 3), (4, 4), (0, 0)], size := 2, maxSize := 4, next := 2 }),
      (2, .leaf { slots := [(3, 3), (4, 4), (5, 5), (6, 6), (0, 0)], size := 2, maxSize := 4, next := 4 }),
      (3, .internal { slots := [(0, 1), (3, 2), (5, 4)], size := 3, maxSize := 4 }),
      (4, .leaf { slots := [(5, 5), (6, 6), (7, 7), (0, 0)], size := 3, maxSize := 4, next := 4 })],
    rootId := 3, nextPid := 5, leafMax := 4, internalMax := 4 }

/-- `tree8` really is the state reached by inserting 1..8 into a fresh
tree, one `Insert` step at a time. -/
theorem tree8_built :
    InsertFromList (mkTree 4 4) [1, 2, 3, 4, 5, 6, 7, 8] = .ok tree8 := by
  have h1 : Insert (mkTree 4 4) 1 1 = .ok (tree8s1, true) := by decide
  have h2 : Insert tree8s1 2 2 = .ok (tree8s2, true) := by decide
  have h3 : Insert tree8s2 3 3 = .ok (tree8s3, true) := by decide
  have h4 : Insert tree8s3 4 4 = .ok (tree8s4, true) := by decide
  have h5 : Insert tree8s4 5 5 = .ok (tree8s5, true) := by decide
  have h6 : Insert tree8s5 6 6 = .ok (tree8s6, true) := by decide
  have h7 : Insert tree8s6 7 7 = .ok (tree8s7, true) := by decide
  have h8 : Insert tree8s7 8 8 = .ok (tree8, true) := by decide
  simp only [InsertFromList, h1, h2, h3, h4, h5, h6, h7, h8, exceptBindOk]

/-! ## C4 -/

/-- C4, counterexample: the claim says that when a newly latched child is
safe, the header-page guard is released together with the earlier write
guards, so that after `FindLeafPage` returns with only the leaf in the
write set the context no longer holds the header guard.  In `tree8` the
root (page 3) is full, hence unsafe for insertion, so `Insert` keeps the
header guard at the pre-descent test; the descent for key 0 then latches
leaf 1, which is safe, and pops the write set down to `[1]` — but
`FindLeafPage` (lines 97-111) never touches the header guard, so the
returned context still holds it (`headerHeld = true`). -/
theorem c4_header_not_released_cex :
    IsSafePage (.internal { slots := [(0, 1), (3, 2), (5, 4), (7, 5)], size := 4, maxSize := 4 })
        .Insertion true = false
    ∧ tree8.rootId = 3
    ∧ tree8.find 3 =
        some (.internal { slots := [(0, 1), (3, 2), (5, 4), (7, 5)], size := 4, maxSize := 4 })
    ∧ FindLeafPage tree8 0 .Insertion
        { headerHeld := true, rootPageId := 3, readSet := [], writeSet := [3] }
        (tree8.pages.length + 1)
      = .ok { headerHeld := true, rootPageId := 3, readSet := [], writeSet := [1] } := by
  refine ⟨by decide, by decide, by decide, by decide⟩



/-- C4, amended: during writer descent, whenever a newly latched child is
safe for the operation every earlier write guard in the write set is
released, but the header guard is never released inside `FindLeafPage` —
it is released only by the root pre-test in `Insert`/`Remove`.  Formally:
a successful writer descent preserves `headerHeld` exactly; and if the
back of the returned write set is a leaf that is safe for the operation,
then either no descent step was taken at all (the context is returned
unchanged) or every earlier write guard has been popped, leaving exactly
that leaf. -/
theorem c4_findleaf_keeps_header (m : Machine) (key : Nat) (op : Operation)
    (ctx ctx' : Context) (fuel : Nat) (hop : op ≠ .Search)
    (h : FindLeafPage m key op ctx fuel = .ok ctx') :
    ctx'.headerHeld = ctx.headerHeld
    ∧ (∀ pid lp, ctx'.writeSet.getLast? = some pid →
        m.find pid = some (.leaf lp) →
        IsSafePage (.leaf lp) op false = true →
        ctx' = ctx ∨ ctx'.writeSet = [pid]) := by
  induction fuel generalizing ctx with
  | zero =>
    cases op with
    | Search => exact absurd rfl hop
    | Insertion => exact absurd h (by simp [FindLeafPage])
    | Removal => exact absurd h (by simp [FindLeafPage])
  | succ n ih =>
    cases op with
    | Search => exact absurd rfl hop
    | Insertion =>
      rw [FindLeafPage] at h
      · split at h
        · exact Except.noConfusion h
        · rename_i pid hlast
          split at h
          · rename_i lp hfind
            obtain rfl : ctx = ctx' := by simpa using h
            exact ⟨rfl, fun _ _ _ _ _ => Or.inl rfl⟩
          · rename_i nd hfind
            dsimp only at h
            split at h
            · exact Except.noConfusion h
            · rename_i childPg hchild
              by_cases hsafe : IsSafePage childPg .Insertion false = true
              · rw [if_pos hsafe] at h
                obtain ⟨h1, h2⟩ := ih _ h
                refine ⟨h1, fun pid' lp' hl hf hs => ?_⟩
                rcases h2 pid' lp' hl hf hs with h3 | h3
                · subst h3
                  right
                  simp only [List.getLast?_singleton, Option.some.injEq] at hl
                  subst hl
                  rfl
                · exact Or.inr h3
              · rw [if_neg hsafe] at h
                obtain ⟨h1, h2⟩ := ih _ h
                refine ⟨h1, fun pid' lp' hl hf hs => ?_⟩
                rcases h2 pid' lp' hl hf hs with h3 | h3
                · exfalso
                  subst h3
                  simp only [List.getLast?_concat, Option.some.injEq] at hl
                  subst hl
                  rw [hchild] at hf
                  exact hsafe (by rw [(Option.some.injEq _ _).mp hf]; exact hs)
                · exact Or.inr h3
          · exact Except.noConfusion h
      · intro hh; cases hh
    | Removal =>
      rw [FindLeafPage] at h
      · split at h
        · exact Except.noConfusion h
        · rename_i pid hlast
          split at h
          · rename_i lp hfind
            obtain rfl : ctx = ctx' := by simpa using h
            exact ⟨rfl, fun _ _ _ _ _ => Or.inl rfl⟩
          · rename_i nd hfind
            dsimp only at h
            split at h
            · exact Except.noConfusion h
            · rename_i childPg hchild
              by_cases hsafe : IsSafePage childPg .Removal false = true
              · rw [if_pos hsafe] at h
                obtain ⟨h1, h2⟩ := ih _ h
                refine ⟨h1, fun pid' lp' hl hf hs => ?_⟩
                rcases h2 pid' lp' hl hf hs with h3 | h3
                · subst h3
                  right
                  simp only [List.getLast?_singleton, Option.some.injEq] at hl
                  subst hl
                  rfl
                · exact Or.inr h3
              · rw [if_neg hsafe] at h
                obtain ⟨h1, h2⟩ := ih _ h
                refine ⟨h1, fun pid' lp' hl hf hs => ?_⟩
                rcases h2 pid' lp' hl hf hs with h3 | h3
                · exfalso
                  subst h3
                  simp only [List.getLast?_concat, Option.some.injEq] at hl
                  subst hl
                  rw [hchild] at hf
                  exact hsafe (by rw [(Option.some.injEq _ _).mp hf]; exact hs)
                · exact Or.inr h3
          · exact Except.noConfusion h
      · intro hh; cases hh

/-- Witness for `c4_findleaf_keeps_header`, at the `tree8` descent for
key 0 exhibited in `c4_header_not_released_cex`. -/
theorem c4_findleaf_keeps_header_witness :
    ({ headerHeld := true, rootPageId := 3, readSet := [],
       writeSet := [1] } : Context).headerHeld
      = ({ headerHeld := true, rootPageId := 3, readSet := [],
           writeSet := [3] } : Context).headerHeld
    ∧ (∀ pid lp,
        ({ headerHeld := true, rootPageId := 3, readSet := [],
           writeSet := [1] } : Context).writeSet.getLast? = some pid →
        tree8.find pid = some (.leaf lp) →
        IsSafePage (.leaf lp) .Insertion false = true →
        ({ headerHeld := true, rootPageId := 3, readSet := [],
           writeSet := [1] } : Context)
          = { headerHeld := true, rootPageId := 3, readSet := [], writeSet := [3] }
        ∨ ({ headerHeld := true, rootPageId := 3, readSet := [],
             writeSet := [1] } : Context).writeSet = [pid]) :=
  c4_findleaf_keeps_header tree8 0 .Insertion
    { headerHeld := true, rootPageId := 3, readSet := [], writeSet := [3] }
    { headerHeld := true, rootPageId := 3, readSet := [], writeSet := [1] }
    6 (by decide) (by decide)

/-- A successful `Search` descent implies the page at the back of the
read set is present in the pool. -/
theorem search_ok_find (m : Machine) (key : Nat) (fuel : Nat) (ctx ctx' : Context)
    (pid : PageId) (hl : ctx.readSet.getLast? = some pid)
    (h : FindLeafPage m key .Search ctx fuel = .ok ctx') :
    ∃ pg, m.find pid = some pg := by
  cases fuel with
  | zero => exact absurd h (by simp [FindLeafPage])
  | succ n =>
    rw [FindLeafPage, hl] at h
    dsimp only at h
    cases hf : m.find pid with
    | none => rw [hf] at h; exact Except.noConfusion h
    | some pg => exact ⟨pg, rfl⟩

/-- Path agreement, `Search` to `Removal`: a writer descent routes through
exactly the same pages as the reader descent for the same key from the
same start page, so if the reader descent succeeds, the writer descent
succeeds and ends at the same leaf (the back of the returned write set
equals the back of the reader's returned read set). -/
theorem findLeafSearchToRemoval (m : Machine) (key : Nat) :
    ∀ (fuel : Nat) (ctxR ctxW ctxR' : Context) (pid : PageId),
    ctxR.readSet.getLast? = some pid →
    ctxW.writeSet.getLast? = some pid →
    FindLeafPage m key .Search ctxR fuel = .ok ctxR' →
    ∃ ctxW', FindLeafPage m key .Removal ctxW fuel = .ok ctxW'
      ∧ ctxW'.writeSet.getLast? = ctxR'.readSet.getLast? := by
  intro fuel
  induction fuel with
  | zero => intro _ _ _ _ _ _ h; exact absurd h (by simp [FindLeafPage])
  | succ n ih =>
    intro ctxR ctxW ctxR' pid hR hW h
    rw [FindLeafPage, hR] at h
    dsimp only at h
    cases hf : m.find pid with
    | none => rw [hf] at h; exact Except.noConfusion h
    | some pg =>
      rw [hf] at h
      cases pg with
      | leaf lp =>
        obtain rfl : ctxR = ctxR' := by simpa using h
        refine ⟨ctxW, ?_, ?_⟩
        · rw [FindLeafPage, hW]
          · dsimp only
            rw [hf]
          · intro hh; cases hh
        · rw [hW, hR]
      | internal nd =>
        dsimp only at h
        have hc : ({ ctxR with readSet :=
            ctxR.readSet ++ [nd.valueAt (BinaryFindInternal nd key).toNat] } :
              Context).readSet.getLast?
            = some (nd.valueAt (BinaryFindInternal nd key).toNat) := by
          simp
        obtain ⟨pg2, hf2⟩ := search_ok_find m key n _ ctxR' _ hc h
        obtain ⟨ctxW', hw1, hw2⟩ := ih _
          { ctxW with writeSet :=
              if IsSafePage pg2 .Removal false
              then [nd.valueAt (BinaryFindInternal nd key).toNat]
              else ctxW.writeSet ++ [nd.valueAt (BinaryFindInternal nd key).toNat] }
          ctxR' (nd.valueAt (BinaryFindInternal nd key).toNat) hc (by
            by_cases hs : IsSafePage pg2 .Removal false = true
            · simp [hs]
            · simp [hs]) h
        refine ⟨ctxW', ?_, hw2⟩
        rw [FindLeafPage, hW]
        · dsimp only
          rw [hf]
          dsimp only
          rw [hf2]
          exact hw1
        · intro hh; cases hh

/-- Path agreement, `Search` to `Insertion` (same as
`findLeafSearchToRemoval`). -/
theorem findLeafSearchToInsertion (m : Machine) (key : Nat) :
    ∀ (fuel : Nat) (ctxR ctxW ctxR' : Context) (pid : PageId),
    ctxR.readSet.getLast? = some pid →
    ctxW.writeSet.getLast? = some pid →
    FindLeafPage m key .Search ctxR fuel = .ok ctxR' →
    ∃ ctxW', FindLeafPage m key .Insertion ctxW fuel = .ok ctxW'
      ∧ ctxW'.writeSet.getLast? = ctxR'.readSet.getLast? := by
  intro fuel
  induction fuel with
  | zero => intro _ _ _ _ _ _ h; exact absurd h (by simp [FindLeafPage])
  | succ n ih =>
    intro ctxR ctxW ctxR' pid hR hW h
    rw [FindLeafPage, hR] at h
    dsimp only at h
    cases hf : m.find pid with
    | none => rw [hf] at h; exact Except.noConfusion h
    | some pg =>
      rw [hf] at h
      cases pg with
      | leaf lp =>
        obtain rfl : ctxR = ctxR' := by simpa using h
        refine ⟨ctxW, ?_, ?_⟩
        · rw [FindLeafPage, hW]
          · dsimp only
            rw [hf]
          · intro hh; cases hh
        · rw [hW, hR]
      | internal nd =>
        dsimp only at h
        have hc : ({ ctxR with readSet :=
            ctxR.readSet ++ [nd.valueAt (BinaryFindInternal nd key).toNat] } :
              Context).readSet.getLast?
            = some (nd.valueAt (BinaryFindInternal nd key).toNat) := by
          simp
        obtain ⟨pg2, hf2⟩ := search_ok_find m key n _ ctxR' _ hc h
        obtain ⟨ctxW', hw1, hw2⟩ := ih _
          { ctxW with writeSet :=
              if IsSafePage pg2 .Insertion false
              then [nd.valueAt (BinaryFindInternal nd key).toNat]
              else ctxW.writeSet ++ [nd.valueAt (BinaryFindInternal nd key).toNat] }
          ctxR' (nd.valueAt (BinaryFindInternal nd key).toNat) hc (by
            by_cases hs : IsSafePage pg2 .Insertion false = true
            · simp [hs]
            · simp [hs]) h
        refine ⟨ctxW', ?_, hw2⟩
        rw [FindLeafPage, hW]
        · dsimp only
          rw [hf]
          dsimp only
          rw [hf2]
          exact hw1
        · intro hh; cases hh

/-- `Except.bind` on an error short-circuits. -/
theorem exceptBindErr {ε α β : Type} (e : ε) (f : α → Except ε β) :
    (Except.error e >>= f : Except ε β) = .error e := rfl

/-! ## C9 -/

/-- C9: for every tree state and every key that is not present — in the
sense that the point lookup `GetValue` completes and returns `false`,
which covers the empty tree (`root_page_id = INVALID_PAGE_ID`) — `Remove`
returns without error and the resulting state is the original machine
unchanged: same header `root_page_id`, same contents of every page.  The
proof: the removal descent routes through exactly the same pages as the
lookup, reaches the same leaf, repeats the same `BinaryFind` test, and
takes the not-found early return before writing anything. -/
theorem c9_remove_absent_noop (m : Machine) (key : Nat)
    (h : GetValue m key = .ok none) : Remove m key = .ok m := by
  by_cases hroot : m.rootId = INVALID_PAGE_ID
  · rw [Remove, if_pos hroot]
  · rw [GetValue, if_neg hroot] at h
    dsimp only at h
    cases hd : FindLeafPage m key .Search
        { headerHeld := false, rootPageId := m.rootId,
          readSet := [m.rootId], writeSet := [] } (m.pages.length + 1) with
    | error e =>
      rw [hd, exceptBindErr] at h
      exact Except.noConfusion h
    | ok ctxR =>
      rw [hd, exceptBindOk] at h
      obtain ⟨rootPg, hfr⟩ := search_ok_find m key (m.pages.length + 1) _ ctxR m.rootId (by rfl) hd
      cases hlast : ctxR.readSet.getLast? with
      | none => rw [hlast] at h; exact Except.noConfusion h
      | some pid =>
        rw [hlast] at h
        dsimp only at h
        cases hfind : m.find pid with
        | none => rw [hfind] at h; exact Except.noConfusion h
        | some pg =>
          rw [hfind] at h
          cases pg with
          | internal nd => exact Except.noConfusion h
          | leaf lp =>
            by_cases hcond : (BinaryFindLeaf lp key = -1
                ∨ cmp (lp.keyAt (BinaryFindLeaf lp key).toNat) key ≠ 0)
            · -- Remove takes the not-found early return
              rw [Remove, if_neg hroot, hfr]
              dsimp only
              have hWl : ((if IsSafePage rootPg .Removal true = true then
                  { headerHeld := false, rootPageId := m.rootId, readSet := [],
                    writeSet := [m.rootId] }
                  else
                  { headerHeld := true, rootPageId := m.rootId, readSet := [],
                    writeSet := [m.rootId] }) : Context).writeSet.getLast?
                  = some m.rootId := by
                by_cases hs : IsSafePage rootPg .Removal true = true
                · rw [if_pos hs]
                  rfl
                · rw [if_neg hs]
                  rfl
              obtain ⟨ctxW, hw1, hw2⟩ := findLeafSearchToRemoval m key
                (m.pages.length + 1) _ _ ctxR m.rootId (by rfl) hWl hd
              rw [hw1, exceptBindOk, hw2, hlast]
              dsimp only
              rw [hfind]
              dsimp only
              rw [if_pos hcond]
            · dsimp only at h
              rw [if_neg hcond] at h
              simp at h

/-- Witness for `c9_remove_absent_noop`: key 100 is absent from `tree8`
(which holds 1..8), and removing it returns the machine unchanged. -/
theorem c9_remove_absent_noop_witness : Remove tree8 100 = .ok tree8 :=
  c9_remove_absent_noop tree8 100 (by decide)

/-! ## Slot-array loop characterizations and C6 -/

/-- Reading back a slot array after a write: index `i` holds the written
value, all other indices are unchanged (out-of-range reads give the
default on both sides). -/
theorem setSlot_getD {α : Type} (xs : List α) (i : Nat) (a d : α) (j : Nat) :
    (setSlot xs i a d).getD j d = if j = i then a else xs.getD j d := by
  unfold setSlot
  rw [List.getD_eq_getElem?_getD, List.getD_eq_getElem?_getD]
  by_cases hi : i < xs.length
  · rw [if_pos hi]
    by_cases hj : j = i
    · subst hj
      rw [List.getElem?_set_self hi, if_pos rfl]
      rfl
    · rw [List.getElem?_set_ne (Ne.symm hj), if_neg hj]
  · rw [if_neg hi]
    by_cases hj : j = i
    · subst hj
      rw [if_pos rfl]
      rw [List.getElem?_append_right (by simp [List.length_append]; omega)]
      have hz : j - (xs ++ List.replicate (j - xs.length) d).length = 0 := by
        simp [List.length_append]
        omega
      rw [hz]
      rfl
    · rw [if_neg hj]
      rcases Nat.lt_or_ge j xs.length with hlt | hge
      · rw [List.getElem?_append_left (by simp [List.length_append]; omega)]
        rw [List.getElem?_append_left hlt]
      · rcases Nat.lt_or_ge j i with hlt2 | hge2
        · rw [List.getElem?_append_left (by simp [List.length_append]; omega)]
          rw [List.getElem?_append_right hge]
          rw [List.getElem?_eq_none (by omega : xs.length ≤ j)]
          have : (List.replicate (i - xs.length) d)[j - xs.length]? = some d := by
            rw [List.getElem?_replicate]
            rw [if_pos (by omega)]
          rw [this]
          rfl
        · have h1 : j ≥ i + 1 := by omega
          rw [List.getElem?_eq_none (by simp [List.length_append]; omega)]
          rw [List.getElem?_eq_none (by omega : xs.length ≤ j)]

/-- A slot write extends the backing array to at least `i + 1`. -/
theorem setSlot_length {α : Type} (xs : List α) (i : Nat) (a d : α) :
    (setSlot xs i a d).length = max xs.length (i + 1) := by
  unfold setSlot
  by_cases hi : i < xs.length
  · rw [if_pos hi]
    simp
    omega
  · rw [if_neg hi]
    simp [List.length_append]
    omega


/-- Effect of the right-shift loop: indices in `(hi - n, hi]` hold their
left neighbour's old value, all others are unchanged. -/
theorem shiftUpAux_getD {α : Type} (d : α) :
    ∀ (n : Nat) (xs : List α) (hi j : Nat), n ≤ hi →
    (shiftUpAux d n xs hi).getD j d
      = if hi - n < j ∧ j ≤ hi then xs.getD (j - 1) d else xs.getD j d := by
  intro n
  induction n with
  | zero =>
    intro xs hi j _
    rw [if_neg (by omega)]
    rfl
  | succ n ih =>
    intro xs hi j hn
    show (shiftUpAux d n (setSlot xs hi (xs.getD (hi - 1) d) d) (hi - 1)).getD j d = _
    rw [ih _ _ _ (by omega)]
    by_cases h1 : hi - 1 - n < j ∧ j ≤ hi - 1
    · rw [if_pos h1, setSlot_getD, if_neg (by omega), if_pos (by omega)]
    · rw [if_neg h1, setSlot_getD]
      by_cases h2 : j = hi
      · subst h2
        rw [if_pos rfl, if_pos (by omega)]
      · rw [if_neg h2, if_neg (by omega)]

/-- The right-shift loop extends the array to at least `hi + 1` (it pads
when asked to write one slot past the end, as the leaf-insert loop
does). -/
theorem shiftUpAux_length {α : Type} (d : α) :
    ∀ (n : Nat) (xs : List α) (hi : Nat), n ≤ hi →
    (shiftUpAux d n xs hi).length
      = if n = 0 then xs.length else max xs.length (hi + 1) := by
  intro n
  induction n with
  | zero => intro xs hi _; rfl
  | succ n ih =>
    intro xs hi hn
    show (shiftUpAux d n (setSlot xs hi (xs.getD (hi - 1) d) d) (hi - 1)).length = _
    rw [ih _ _ (by omega), setSlot_length]
    by_cases h : n = 0
    · rw [if_pos h, if_neg (by omega)]
    · rw [if_neg h, if_neg (by omega)]
      omega

/-- Effect of the left-shift loop: indices in `[lo - 1, lo - 1 + n)` hold
their right neighbour's old value, all others are unchanged. -/
theorem shiftDownAux_getD {α : Type} (d : α) :
    ∀ (n : Nat) (xs : List α) (lo j : Nat), 1 ≤ lo →
    (shiftDownAux d n xs lo).getD j d
      = if lo - 1 ≤ j ∧ j < lo - 1 + n then xs.getD (j + 1) d else xs.getD j d := by
  intro n
  induction n with
  | zero =>
    intro xs lo j _
    rw [if_neg (by omega)]
    rfl
  | succ n ih =>
    intro xs lo j hlo
    show (shiftDownAux d n (setSlot xs (lo - 1) (xs.getD lo d) d) (lo + 1)).getD j d = _
    rw [ih _ _ _ (by omega)]
    by_cases h1 : lo + 1 - 1 ≤ j ∧ j < lo + 1 - 1 + n
    · rw [if_pos h1, setSlot_getD, if_neg (by omega), if_pos (by omega)]
    · rw [if_neg h1, setSlot_getD]
      by_cases h2 : j = lo - 1
      · subst h2
        rw [if_pos rfl, if_pos (by omega)]
        congr 1
        omega
      · rw [if_neg h2, if_neg (by omega)]

/-- Effect of the copy loop: the destination range `[dstStart, dstStart+n)`
holds the source range `[srcStart, srcStart+n)`, the rest of the
destination is unchanged. -/
theorem copyRange_getD {α : Type} (d : α) (src : List α) :
    ∀ (n : Nat) (dst : List α) (dstStart srcStart j : Nat),
    (copyRange d src dst dstStart srcStart n).getD j d
      = if dstStart ≤ j ∧ j < dstStart + n
        then src.getD (srcStart + (j - dstStart)) d else dst.getD j d := by
  intro n
  induction n with
  | zero =>
    intro dst dstStart srcStart j
    rw [if_neg (by omega)]
    rfl
  | succ n ih =>
    intro dst dstStart srcStart j
    show (copyRange d src (setSlot dst dstStart (src.getD srcStart d) d)
      (dstStart + 1) (srcStart + 1) n).getD j d = _
    rw [ih]
    by_cases h1 : dstStart + 1 ≤ j ∧ j < dstStart + 1 + n
    · rw [if_pos h1, if_pos (by omega)]
      congr 1
      omega
    · rw [if_neg h1, setSlot_getD]
      by_cases h2 : j = dstStart
      · subst h2
        rw [if_pos rfl, if_pos (by omega)]
        congr 1
        omega
      · rw [if_neg h2, if_neg (by omega)]

/-- The copy loop extends the destination to at least `dstStart + n`. -/
theorem copyRange_length {α : Type} (d : α) (src : List α) :
    ∀ (n : Nat) (dst : List α) (dstStart srcStart : Nat),
    (copyRange d src dst dstStart srcStart n).length
      = if n = 0 then dst.length else max dst.length (dstStart + n) := by
  intro n
  induction n with
  | zero => intro dst dstStart srcStart; rfl
  | succ n ih =>
    intro dst dstStart srcStart
    show (copyRange d src (setSlot dst dstStart (src.getD srcStart d) d)
      (dstStart + 1) (srcStart + 1) n).length = _
    rw [ih, setSlot_length]
    by_cases h : n = 0
    · rw [if_pos h, if_neg (by omega)]
      omega
    · rw [if_neg h, if_neg (by omega)]
      omega

/-- The binary-search loop stays within its initial bracket `[l, r]`. -/
theorem bfLoop_bounds (key : Nat → Nat) (k : Nat) :
    ∀ (gas l r : Nat), l ≤ r →
    l ≤ bfLoop key k l r gas ∧ bfLoop key k l r gas ≤ r := by
  intro gas
  induction gas with
  | zero =>
    intro l r hlr
    rw [bfLoop]
    by_cases h : l < r
    · rw [if_pos h]
      omega
    · rw [if_neg h]
      omega
  | succ n ih =>
    intro l r hlr
    rw [bfLoop]
    by_cases h : l < r
    · rw [if_pos h]
      dsimp only
      by_cases hc : cmp (key ((l + r + 1) / 2)) k ≠ 1
      · rw [if_pos hc]
        have := ih ((l + r + 1) / 2) r (by omega)
        omega
      · rw [if_neg hc]
        have := ih l ((l + r + 1) / 2 - 1) (by omega)
        omega
    · rw [if_neg h]
      omega


/-- `BinaryFind` on an internal page returns a slot in `[0, size)`
(degenerating to 0 for `size ≤ 1`). -/
theorem binaryFindInternal_bounds (p : InternalPage) (k : Nat) :
    0 ≤ BinaryFindInternal p k ∧ (BinaryFindInternal p k).toNat + 1 ≤ p.size
      ∨ p.size ≤ 1 ∧ BinaryFindInternal p k = 0 := by
  rw [BinaryFindInternal]
  by_cases h : p.size ≤ 1
  · rw [if_pos h]
    right
    exact ⟨h, rfl⟩
  · rw [if_neg h]
    left
    dsimp only
    obtain ⟨h1, h2⟩ := bfLoop_bounds p.keyAt k p.size 1 (p.size - 1) (by omega)
    by_cases hc : cmp (p.keyAt (bfLoop p.keyAt k 1 (p.size - 1) p.size)) k = 1
    · rw [if_pos hc]
      omega
    · rw [if_neg hc]
      constructor
      · omega
      · rw [Int.toNat_ofNat]
        omega

/-- Lists of equal length with equal `getD` reads are equal. -/
theorem list_ext_getD {α : Type} (d : α) (xs ys : List α)
    (hlen : xs.length = ys.length)
    (h : ∀ j, j < xs.length → xs.getD j d = ys.getD j d) : xs = ys := by
  apply List.ext_getElem hlen
  intro j h1 h2
  have h3 := h j h1
  rwa [List.getD_eq_getElem xs d h1, List.getD_eq_getElem ys d h2] at h3

/-- `take` preserves in-range `getD` reads. -/
theorem getD_take {α : Type} (d : α) (xs : List α) (k j : Nat) (h : j < k) :
    (xs.take k).getD j d = xs.getD j d := by
  rw [List.getD_eq_getElem?_getD, List.getD_eq_getElem?_getD,
    List.getElem?_take_of_lt h]

/-- `drop` shifts `getD` reads. -/
theorem getD_drop {α : Type} (d : α) (xs : List α) (k j : Nat) :
    (xs.drop k).getD j d = xs.getD (k + j) d := by
  rw [List.getD_eq_getElem?_getD, List.getD_eq_getElem?_getD, List.getElem?_drop]

/-- Reads from a sequence with one element inserted at `pos`. -/
theorem logical_getD {α : Type} (d : α) (L : List α) (kv : α) (pos j : Nat)
    (hpos : pos ≤ L.length) :
    (L.take pos ++ kv :: L.drop pos).getD j d
      = if j < pos then L.getD j d
        else if j = pos then kv else L.getD (j - 1) d := by
  have hlt : (L.take pos).length = pos := by
    simp
    omega
  rcases Nat.lt_trichotomy j pos with h | h | h
  · rw [if_pos h, List.getD_eq_getElem?_getD,
      List.getElem?_append_left (by omega), ← List.getD_eq_getElem?_getD,
      getD_take d L pos j h]
  · subst h
    rw [if_neg (by omega), if_pos rfl, List.getD_eq_getElem?_getD,
      List.getElem?_append_right (by omega), hlt]
    simp
  · rw [if_neg (by omega), if_neg (by omega), List.getD_eq_getElem?_getD,
      List.getElem?_append_right (by omega), hlt]
    rw [← List.getD_eq_getElem?_getD]
    have h2 : j - pos = (j - pos - 1) + 1 := by omega
    rw [h2, List.getD_cons_succ, getD_drop]
    congr 1
    omega

/-- Inserting one element grows the length by one. -/
theorem logical_length {α : Type} (L : List α) (kv : α) (pos : Nat)
    (hpos : pos ≤ L.length) :
    (L.take pos ++ kv :: L.drop pos).length = L.length + 1 := by
  simp
  omega


/-- The live slots of an internal page (the array truncated to `size`). -/
def InternalPage.listOf (p : InternalPage) : List (Nat × PageId) :=
  p.slots.take p.size

/-- The spec's \"logical combined slot sequence\" of an internal split: the
live slots of `P` with `(key, new_child)` inserted at the position
`BinaryFind(P, key) + 1` chosen by `InsertIntoParent`. -/
def logicalSplitSeq (parent : InternalPage) (key : Nat)
    (newChildId : PageId) : List (Nat × PageId) :=
  parent.listOf.take ((BinaryFindInternal parent key + 1).toNat)
    ++ (key, newChildId)
      :: parent.listOf.drop ((BinaryFindInternal parent key + 1).toNat)

/-- C6: for an internal-page split with the parent full
(`size = max_size`), in all three cases of the insert position relative
to `m = min_size`, the split performed by the source's three-branch code
(`SplitInternal`, the exact body of lines 248-290 of
`InsertIntoParent`) leaves `P` with exactly the left `m` slots of the
logical combined sequence (`P.size = m`), gives the new page `P'` the
remaining `max_size + 1 - m` slots renumbered from 0
(`P'.size = max_size + 1 - m`), and `P'.key_at(0)` — the key
`InsertIntoParent` recursively pushes to the grandparent — is the key of
the logical slot at the partition boundary. -/
theorem c6_internal_split_partition (parent : InternalPage) (key : Nat)
    (newChildId : PageId) (internalMax : Nat)
    (hfull : parent.size = parent.maxSize)
    (hlen : parent.size ≤ parent.slots.length)
    (hmax : 3 ≤ parent.maxSize) :
    ((SplitInternal parent key newChildId internalMax).1.size = parent.minSize
      ∧ (SplitInternal parent key newChildId internalMax).2.size
          = parent.maxSize + 1 - parent.minSize)
    ∧ (SplitInternal parent key newChildId internalMax).1.listOf
        = (logicalSplitSeq parent key newChildId).take parent.minSize
    ∧ (SplitInternal parent key newChildId internalMax).2.listOf
        = (logicalSplitSeq parent key newChildId).drop parent.minSize
    ∧ (SplitInternal parent key newChildId internalMax).2.keyAt 0
        = ((logicalSplitSeq parent key newChildId).getD parent.minSize
            (0, INVALID_PAGE_ID)).1 := by
  have hposB := binaryFindInternal_bounds parent key
  have hpos1 : 1 ≤ (BinaryFindInternal parent key + 1).toNat := by
    rcases hposB with ⟨h1, h2⟩ | ⟨h1, h2⟩
    · omega
    · rw [h2]; rfl
  have hpos2 : (BinaryFindInternal parent key + 1).toNat ≤ parent.size := by
    rcases hposB with ⟨h1, h2⟩ | ⟨h1, h2⟩
    · omega
    · rw [h2]; omega
  have hmin1 : 2 ≤ parent.minSize := by
    show 2 ≤ (parent.maxSize + 1) / 2
    omega
  have hmin2 : parent.minSize + 1 ≤ parent.maxSize := by
    show (parent.maxSize + 1) / 2 + 1 ≤ parent.maxSize
    omega
  have hLlen : parent.listOf.length = parent.size := by
    show (parent.slots.take parent.size).length = parent.size
    simp
    omega
  have hLget : ∀ j, j < parent.size →
      parent.listOf.getD j (0, INVALID_PAGE_ID)
        = parent.slots.getD j (0, INVALID_PAGE_ID) := by
    intro j hj
    exact getD_take _ _ _ _ hj
  have hlogLen : (logicalSplitSeq parent key newChildId).length = parent.size + 1 := by
    rw [logicalSplitSeq, logical_length _ _ _ (by omega)]
    omega
  have hlogGet : ∀ j, (logicalSplitSeq parent key newChildId).getD j (0, INVALID_PAGE_ID)
      = if j < (BinaryFindInternal parent key + 1).toNat
        then parent.listOf.getD j (0, INVALID_PAGE_ID)
        else if j = (BinaryFindInternal parent key + 1).toNat then (key, newChildId)
        else parent.listOf.getD (j - 1) (0, INVALID_PAGE_ID) := by
    intro j
    rw [logicalSplitSeq, logical_getD _ _ _ _ _ (by omega)]
  rw [SplitInternal]
  dsimp only
  by_cases hc1 : (BinaryFindInternal parent key + 1).toNat < parent.minSize
  · rw [if_pos hc1]
    dsimp only
    have ha1len : (copyRange (0, INVALID_PAGE_ID) parent.slots
        ([] : List (Nat × PageId)) 1 parent.minSize
        (parent.size - parent.minSize)).length = parent.size + 1 - parent.minSize := by
      rw [copyRange_length, if_neg (by omega)]
      simp
      omega
    have ha2get : ∀ j, (setSlot (copyRange (0, INVALID_PAGE_ID) parent.slots
        ([] : List (Nat × PageId)) 1 parent.minSize (parent.size - parent.minSize))
        0 (parent.slots.getD (parent.minSize - 1) (0, INVALID_PAGE_ID))
        (0, INVALID_PAGE_ID)).getD j (0, INVALID_PAGE_ID)
        = if j = 0 then parent.slots.getD (parent.minSize - 1) (0, INVALID_PAGE_ID)
          else if j < parent.size + 1 - parent.minSize
            then parent.slots.getD (parent.minSize + (j - 1)) (0, INVALID_PAGE_ID)
            else (0, INVALID_PAGE_ID) := by
      intro j
      rw [setSlot_getD]
      by_cases hj0 : j = 0
      · rw [if_pos hj0, if_pos hj0]
      · rw [if_neg hj0, if_neg hj0, copyRange_getD]
        by_cases hjr : 1 ≤ j ∧ j < 1 + (parent.size - parent.minSize)
        · rw [if_pos hjr, if_pos (by omega)]
        · rw [if_neg hjr, if_neg (by omega)]
          simp
    have hb1get : ∀ j, (shiftUpLoop (0, INVALID_PAGE_ID) parent.slots
        ((BinaryFindInternal parent key + 1).toNat)
        (parent.minSize - 1)).getD j (0, INVALID_PAGE_ID)
        = if (BinaryFindInternal parent key + 1).toNat < j ∧ j ≤ parent.minSize - 1
          then parent.slots.getD (j - 1) (0, INVALID_PAGE_ID)
          else parent.slots.getD j (0, INVALID_PAGE_ID) := by
      intro j
      rw [shiftUpLoop, shiftUpAux_getD _ _ _ _ _ (by omega)]
      by_cases hjr : parent.minSize - 1 - (parent.minSize - 1
          - (BinaryFindInternal parent key + 1).toNat) < j ∧ j ≤ parent.minSize - 1
      · rw [if_pos hjr, if_pos (by omega)]
      · rw [if_neg hjr, if_neg (by omega)]
    have hb1len : (shiftUpLoop (0, INVALID_PAGE_ID) parent.slots
        ((BinaryFindInternal parent key + 1).toNat)
        (parent.minSize - 1)).length = parent.slots.length := by
      rw [shiftUpLoop, shiftUpAux_length _ _ _ _ (by omega)]
      by_cases hz : parent.minSize - 1 - (BinaryFindInternal parent key + 1).toNat = 0
      · rw [if_pos hz]
      · rw [if_neg hz]
        omega
    refine ⟨⟨rfl, rfl⟩, ?_, ?_, ?_⟩
    · show (List.take parent.minSize _) = _
      apply list_ext_getD (0, INVALID_PAGE_ID)
      · simp only [List.length_take, setSlot_length, hb1len, hlogLen]
        omega
      · intro j hj
        simp only [List.length_take, setSlot_length, hb1len] at hj
        have hjm : j < parent.minSize := by omega
        rw [getD_take _ _ _ _ hjm, getD_take _ _ _ _ hjm, setSlot_getD, hb1get, hlogGet]
        by_cases hjp : j = (BinaryFindInternal parent key + 1).toNat
        · rw [if_pos hjp, if_neg (by omega), if_pos hjp]
        · rw [if_neg hjp]
          by_cases hjlt : j < (BinaryFindInternal parent key + 1).toNat
          · rw [if_neg (by omega), if_pos hjlt, hLget _ (by omega)]
          · rw [if_pos (by omega), if_neg hjlt, if_neg hjp, hLget _ (by omega)]
    · show (List.take (parent.maxSize + 1 - parent.minSize) _) = _
      apply list_ext_getD (0, INVALID_PAGE_ID)
      · simp only [List.length_take, List.length_drop, hlogLen, setSlot_length, ha1len]
        omega
      · intro j hj
        simp only [List.length_take, setSlot_length, ha1len] at hj
        have hjm : j < parent.maxSize + 1 - parent.minSize := by omega
        rw [getD_take _ _ _ _ hjm, getD_drop, hlogGet, ha2get]
        by_cases hj0 : j = 0
        · subst hj0
          rw [if_pos rfl, if_neg (by omega), if_neg (by omega), hLget _ (by omega)]
          norm_num
        · rw [if_neg hj0, if_pos (by omega), if_neg (by omega), if_neg (by omega),
            hLget _ (by omega)]
          congr 1
          omega
    · show ((setSlot _ 0 _ (0, INVALID_PAGE_ID)).getD 0 _).1 = _
      rw [setSlot_getD, if_pos rfl, hlogGet, if_neg (by omega), if_neg (by omega),
        hLget _ (by omega)]
  · rw [if_neg hc1]
    by_cases hc2 : (BinaryFindInternal parent key + 1).toNat = parent.minSize
    · rw [if_pos hc2]
      dsimp only
      have ha1len : (copyRange (0, INVALID_PAGE_ID) parent.slots
          ([] : List (Nat × PageId)) 1 parent.minSize
          (parent.size - parent.minSize)).length = parent.size + 1 - parent.minSize := by
        rw [copyRange_length, if_neg (by omega)]
        simp
        omega
      have ha2get : ∀ j, (setSlot (copyRange (0, INVALID_PAGE_ID) parent.slots
          ([] : List (Nat × PageId)) 1 parent.minSize (parent.size - parent.minSize))
          0 (key, newChildId) (0, INVALID_PAGE_ID)).getD j (0, INVALID_PAGE_ID)
          = if j = 0 then (key, newChildId)
            else if j < parent.size + 1 - parent.minSize
              then parent.slots.getD (parent.minSize + (j - 1)) (0, INVALID_PAGE_ID)
              else (0, INVALID_PAGE_ID) := by
        intro j
        rw [setSlot_getD]
        by_cases hj0 : j = 0
        · rw [if_pos hj0, if_pos hj0]
        · rw [if_neg hj0, if_neg hj0, copyRange_getD]
          by_cases hjr : 1 ≤ j ∧ j < 1 + (parent.size - parent.minSize)
          · rw [if_pos hjr, if_pos (by omega)]
          · rw [if_neg hjr, if_neg (by omega)]
            simp
      refine ⟨⟨rfl, rfl⟩, ?_, ?_, ?_⟩
      · show parent.slots.take parent.minSize = _
        apply list_ext_getD (0, INVALID_PAGE_ID)
        · simp only [List.length_take, hlogLen]
          omega
        · intro j hj
          simp only [List.length_take] at hj
          have hjm : j < parent.minSize := by omega
          rw [getD_take _ _ _ _ hjm, getD_take _ _ _ _ hjm, hlogGet,
            if_pos (by omega), hLget j (by omega)]
      · show (List.take (parent.maxSize + 1 - parent.minSize) _) = _
        apply list_ext_getD (0, INVALID_PAGE_ID)
        · simp only [List.length_take, List.length_drop, hlogLen, setSlot_length, ha1len]
          omega
        · intro j hj
          simp only [List.length_take, setSlot_length, ha1len] at hj
          have hjm : j < parent.maxSize + 1 - parent.minSize := by omega
          rw [getD_take _ _ _ _ hjm, getD_drop, hlogGet, ha2get, hc2]
          by_cases hj0 : j = 0
          · subst hj0
            rw [if_pos rfl, if_neg (by omega), if_pos (by omega)]
          · rw [if_neg hj0, if_pos (by omega), if_neg (by omega), if_neg (by omega),
              hLget _ (by omega)]
            congr 1
            omega
      · show ((setSlot _ 0 (key, newChildId) (0, INVALID_PAGE_ID)).getD 0 _).1 = _
        rw [setSlot_getD, if_pos rfl, hlogGet, if_neg (by omega), if_pos (by omega)]
    · rw [if_neg hc2]
      dsimp only
      have hp2 : 1 ≤ (BinaryFindInternal parent key + 1).toNat - parent.minSize
          ∧ (BinaryFindInternal parent key + 1).toNat - parent.minSize
            ≤ parent.size - parent.minSize := by omega
      have ha1len : (copyRange (0, INVALID_PAGE_ID) parent.slots
          ([] : List (Nat × PageId)) 0 parent.minSize
          (parent.size - parent.minSize)).length = parent.size - parent.minSize := by
        rw [copyRange_length, if_neg (by omega)]
        simp
      have ha1get : ∀ j, (copyRange (0, INVALID_PAGE_ID) parent.slots
          ([] : List (Nat × PageId)) 0 parent.minSize
          (parent.size - parent.minSize)).getD j (0, INVALID_PAGE_ID)
          = if j < parent.size - parent.minSize
            then parent.slots.getD (parent.minSize + j) (0, INVALID_PAGE_ID)
            else (0, INVALID_PAGE_ID) := by
        intro j
        rw [copyRange_getD]
        by_cases hjr : 0 ≤ j ∧ j < 0 + (parent.size - parent.minSize)
        · rw [if_pos hjr, if_pos (by omega)]
          norm_num
        · rw [if_neg hjr, if_neg (by omega)]
          simp
      have ha2get : ∀ j, (shiftUpLoop (0, INVALID_PAGE_ID)
          (copyRange (0, INVALID_PAGE_ID) parent.slots
            ([] : List (Nat × PageId)) 0 parent.minSize (parent.size - parent.minSize))
          ((BinaryFindInternal parent key + 1).toNat - parent.minSize)
          (parent.maxSize + 1 - parent.minSize - 1)).getD j (0, INVALID_PAGE_ID)
          = if (BinaryFindInternal parent key + 1).toNat - parent.minSize < j
              ∧ j ≤ parent.maxSize - parent.minSize
            then (if j - 1 < parent.size - parent.minSize
              then parent.slots.getD (parent.minSize + (j - 1)) (0, INVALID_PAGE_ID)
              else (0, INVALID_PAGE_ID))
            else (if j < parent.size - parent.minSize
              then parent.slots.getD (parent.minSize + j) (0, INVALID_PAGE_ID)
              else (0, INVALID_PAGE_ID)) := by
        intro j
        rw [shiftUpLoop, shiftUpAux_getD _ _ _ _ _ (by omega)]
        by_cases hjr : parent.maxSize + 1 - parent.minSize - 1
            - (parent.maxSize + 1 - parent.minSize - 1
              - ((BinaryFindInternal parent key + 1).toNat - parent.minSize)) < j
            ∧ j ≤ parent.maxSize + 1 - parent.minSize - 1
        · rw [if_pos hjr, if_pos (by omega), ha1get]
        · rw [if_neg hjr, if_neg (by omega), ha1get]
      have ha2len : (shiftUpLoop (0, INVALID_PAGE_ID)
          (copyRange (0, INVALID_PAGE_ID) parent.slots
            ([] : List (Nat × PageId)) 0 parent.minSize (parent.size - parent.minSize))
          ((BinaryFindInternal parent key + 1).toNat - parent.minSize)
          (parent.maxSize + 1 - parent.minSize - 1)).length
          = if (BinaryFindInternal parent key + 1).toNat = parent.size
            then parent.size - parent.minSize
            else parent.size + 1 - parent.minSize := by
        rw [shiftUpLoop, shiftUpAux_length _ _ _ _ (by omega), ha1len]
        split_ifs <;> omega
      refine ⟨⟨rfl, rfl⟩, ?_, ?_, ?_⟩
      · show parent.slots.take parent.minSize = _
        apply list_ext_getD (0, INVALID_PAGE_ID)
        · simp only [List.length_take, hlogLen]
          omega
        · intro j hj
          simp only [List.length_take] at hj
          have hjm : j < parent.minSize := by omega
          rw [getD_take _ _ _ _ hjm, getD_take _ _ _ _ hjm, hlogGet,
            if_pos (by omega), hLget j (by omega)]
      · show (List.take (parent.maxSize + 1 - parent.minSize) _) = _
        apply list_ext_getD (0, INVALID_PAGE_ID)
        · simp only [List.length_take, List.length_drop, hlogLen, setSlot_length, ha2len]
          by_cases hz : (BinaryFindInternal parent key + 1).toNat = parent.size
          · rw [if_pos hz]
            omega
          · rw [if_neg hz]
            omega
        · intro j hj
          simp only [List.length_take, setSlot_length, ha2len] at hj
          have hjm : j < parent.maxSize + 1 - parent.minSize := by omega
          rw [getD_take _ _ _ _ hjm, getD_drop, hlogGet, setSlot_getD, ha2get]
          by_cases hjp : j = (BinaryFindInternal parent key + 1).toNat - parent.minSize
          · rw [if_pos hjp, if_neg (by omega), if_pos (by omega)]
          · rw [if_neg hjp]
            by_cases hjlt : j < (BinaryFindInternal parent key + 1).toNat - parent.minSize
            · rw [if_neg (by omega), if_pos (by omega), if_pos (by omega),
                hLget _ (by omega)]
            · rw [if_pos (by omega), if_pos (by omega), if_neg (by omega),
                if_neg (by omega), hLget _ (by omega)]
              congr 1
              omega
      · show ((setSlot _ _ (key, newChildId) (0, INVALID_PAGE_ID)).getD 0 _).1 = _
        rw [setSlot_getD, if_neg (by omega), ha2get, if_neg (by omega),
          if_pos (by omega), hlogGet, if_pos (by omega), hLget _ (by omega)]
        norm_num

/-- A concrete full parent for the `c6_internal_split_partition` witness. -/
def c6parent : InternalPage :=
  { slots := [(0, 1), (3, 2), (5, 4), (7, 5)], size := 4, maxSize := 4 }

/-- Witness for `c6_internal_split_partition` at a concrete full parent
(the root of `tree8`) and key 4. -/
theorem c6_internal_split_partition_witness :
    (((SplitInternal c6parent 4 9 4).1.size = c6parent.minSize
      ∧ (SplitInternal c6parent 4 9 4).2.size
          = c6parent.maxSize + 1 - c6parent.minSize)
    ∧ (SplitInternal c6parent 4 9 4).1.listOf
        = (logicalSplitSeq c6parent 4 9).take c6parent.minSize
    ∧ (SplitInternal c6parent 4 9 4).2.listOf
        = (logicalSplitSeq c6parent 4 9).drop c6parent.minSize
    ∧ (SplitInternal c6parent 4 9 4).2.keyAt 0
        = ((logicalSplitSeq c6parent 4 9).getD c6parent.minSize
            (0, INVALID_PAGE_ID)).1) :=
  c6_internal_split_partition c6parent 4 9 4 (by decide) (by decide) (by decide)

/-! ## C5: amended statement

The binary-search routines `BinaryFind` (leaf lower bound) and the
internal routing search, verified against their loop `BinaryFindLoop`,
and the amended `Begin(key)` behaviour. -/

theorem cmp_ne_one (a b : Nat) : cmp a b ≠ 1 ↔ a ≤ b := by
  rw [cmp]
  split_ifs with h1 h2
  · exact ⟨fun _ => by omega, fun _ => by decide⟩
  · exact ⟨fun h => absurd rfl h, fun h => absurd h (by omega)⟩
  · exact ⟨fun _ => by omega, fun _ => by decide⟩

theorem cmp_eq_one (a b : Nat) : cmp a b = 1 ↔ b < a := by
  rw [cmp]
  split_ifs with h1 h2
  · exact ⟨fun h => absurd h (by decide), fun h => absurd h (by omega)⟩
  · exact ⟨fun _ => h2, fun _ => rfl⟩
  · exact ⟨fun h => absurd h (by decide), fun h => absurd h (by omega)⟩

theorem cmp_eq_zero (a b : Nat) : cmp a b = 0 ↔ a = b := by
  rw [cmp]
  split_ifs with h1 h2
  · exact ⟨fun h => absurd h (by decide), fun h => absurd h (by omega)⟩
  · exact ⟨fun h => absurd h (by decide), fun h => absurd h (by omega)⟩
  · exact ⟨fun _ => by omega, fun _ => rfl⟩

theorem bfLoop_spec (key : Nat → Nat) (k : Nat) (size lInit : Nat)
    (hsort : ∀ i j, lInit ≤ i → i < j → j < size → key i < key j) :
    ∀ (gas l r : Nat), lInit ≤ l → l ≤ r → r < size → r - l ≤ gas →
    (∀ j, r < j → j < size → k < key j) →
    (l = lInit ∨ key l ≤ k) →
    (∀ j, bfLoop key k l r gas < j → j < size → k < key j)
    ∧ (bfLoop key k l r gas = lInit ∨ key (bfLoop key k l r gas) ≤ k) := by
  intro gas
  induction gas with
  | zero =>
    intro l r hil hlr hrs hgas habove hat
    have hre : l = r := by omega
    subst hre
    rw [bfLoop, if_neg (by omega)]
    exact ⟨habove, hat⟩
  | succ n ih =>
    intro l r hil hlr hrs hgas habove hat
    rw [bfLoop]
    by_cases hlt : l < r
    · rw [if_pos hlt]
      dsimp only
      by_cases hc : cmp (key ((l + r + 1) / 2)) k ≠ 1
      · rw [if_pos hc]
        rw [cmp_ne_one] at hc
        exact ih ((l + r + 1) / 2) r (by omega) (by omega) hrs (by omega) habove (Or.inr hc)
      · rw [if_neg hc]
        rw [not_not, cmp_eq_one] at hc
        refine ih l ((l + r + 1) / 2 - 1) hil (by omega) (by omega) (by omega) ?_ hat
        intro j hj1 hj2
        rcases Nat.lt_or_ge r j with hjr | hjr
        · exact habove j hjr hj2
        · calc k < key ((l + r + 1) / 2) := hc
            _ ≤ key j := by
              rcases Nat.eq_or_lt_of_le (by omega : (l + r + 1) / 2 ≤ j) with he | hlt2
              · rw [he]
              · exact le_of_lt (hsort _ _ (by omega) hlt2 hj2)
    · have hre : l = r := by omega
      subst hre
      rw [if_neg hlt]
      exact ⟨habove, hat⟩

theorem binaryFindLeaf_spec (lp : LeafPage) (k : Nat)
    (hsort : ∀ i j, i < j → j < lp.size → lp.keyAt i < lp.keyAt j) :
    (BinaryFindLeaf lp k = -1 ∧ ∀ j, j < lp.size → k < lp.keyAt j)
    ∨ (∃ i : Nat, BinaryFindLeaf lp k = (i : Int) ∧ i < lp.size ∧ lp.keyAt i ≤ k
        ∧ ∀ j, j < lp.size → lp.keyAt j ≤ k → j ≤ i) := by
  rw [BinaryFindLeaf]
  by_cases hsz : lp.size = 0
  · rw [if_pos hsz]
    left
    exact ⟨rfl, fun j hj => absurd hj (by omega)⟩
  · rw [if_neg hsz]
    dsimp only
    obtain ⟨hab, hat⟩ := bfLoop_spec lp.keyAt k lp.size 0
      (fun i j _ hij hj => hsort i j hij hj) lp.size 0 (lp.size - 1)
      (by omega) (by omega) (by omega) (by omega)
      (fun j h1 h2 => absurd h1 (by omega)) (Or.inl rfl)
    obtain ⟨hlo, hhi⟩ := bfLoop_bounds lp.keyAt k lp.size 0 (lp.size - 1) (by omega)
    by_cases hc : cmp (lp.keyAt (bfLoop lp.keyAt k 0 (lp.size - 1) lp.size)) k = 1
    · rw [if_pos hc]
      rw [cmp_eq_one] at hc
      left
      refine ⟨rfl, fun j hj => ?_⟩
      by_cases hj0 : bfLoop lp.keyAt k 0 (lp.size - 1) lp.size < j
      · exact hab j hj0 hj
      · have hz : bfLoop lp.keyAt k 0 (lp.size - 1) lp.size = 0 := by
          rcases hat with h | h
          · exact h
          · exact absurd h (by omega)
        have hj' : j = 0 := by omega
        rw [hj']
        rwa [hz] at hc
    · rw [if_neg hc]
      rw [cmp_eq_one] at hc
      right
      refine ⟨bfLoop lp.keyAt k 0 (lp.size - 1) lp.size, rfl, by omega, by omega, ?_⟩
      intro j hj hkj
      by_contra hgt
      exact absurd (hab j (by omega) hj) (by omega)

theorem binaryFindInternal_spec (nd : InternalPage) (k : Nat)
    (hsort : ∀ i j, 1 ≤ i → i < j → j < nd.size → nd.keyAt i < nd.keyAt j) :
    ∃ i : Nat, BinaryFindInternal nd k = (i : Int)
      ∧ (nd.size = 0 ∧ i = 0 ∨ i < nd.size)
      ∧ (1 ≤ i → nd.keyAt i ≤ k)
      ∧ (∀ j, i < j → j < nd.size → k < nd.keyAt j) := by
  rw [BinaryFindInternal]
  by_cases hsz : nd.size ≤ 1
  · rw [if_pos hsz]
    refine ⟨0, rfl, by omega, by omega, fun j h1 h2 => by omega⟩
  · rw [if_neg hsz]
    dsimp only
    obtain ⟨hab, hat⟩ := bfLoop_spec nd.keyAt k nd.size 1 hsort
      nd.size 1 (nd.size - 1)
      (by omega) (by omega) (by omega) (by omega)
      (fun j h1 h2 => absurd h1 (by omega)) (Or.inl rfl)
    obtain ⟨hlo, hhi⟩ := bfLoop_bounds nd.keyAt k nd.size 1 (nd.size - 1) (by omega)
    by_cases hc : cmp (nd.keyAt (bfLoop nd.keyAt k 1 (nd.size - 1) nd.size)) k = 1
    · rw [if_pos hc]
      rw [cmp_eq_one] at hc
      have hz : bfLoop nd.keyAt k 1 (nd.size - 1) nd.size = 1 := by
        rcases hat with h | h
        · exact h
        · exact absurd h (by omega)
      refine ⟨0, rfl, by omega, by omega, fun j h1 h2 => ?_⟩
      rcases Nat.eq_or_lt_of_le (by omega : 1 ≤ j) with he | hgt
      · rw [← he]
        rwa [hz] at hc
      · exact hab j (by omega) h2
    · rw [if_neg hc]
      rw [cmp_eq_one] at hc
      exact ⟨bfLoop nd.keyAt k 1 (nd.size - 1) nd.size, rfl, by omega,
        fun _ => by omega, hab⟩
theorem descendBegin_spec (m : Machine) (key : Nat)
    (hsorted : ∀ e ∈ m.pages, ∀ lp, e.2 = Page.leaf lp →
      ∀ i j, i < j → j < lp.size → lp.keyAt i < lp.keyAt j) :
    ∀ (fuel : Nat) (pid : PageId) (it : IndexIterator),
    descendBegin m key pid fuel = .ok it →
    ∃ pid2 lp, m.find pid2 = some (.leaf lp)
      ∧ ((BinaryFindLeaf lp key = -1 ∧ it = EndIterator
            ∧ ∀ j, j < lp.size → key < lp.keyAt j)
        ∨ (∃ i : Nat, BinaryFindLeaf lp key = (i : Int)
            ∧ it = { pageId := pid2, slotIndex := (i : Int) }
            ∧ i < lp.size ∧ lp.keyAt i ≤ key
            ∧ ∀ j, j < lp.size → lp.keyAt j ≤ key → j ≤ i)) := by
  intro fuel
  induction fuel with
  | zero =>
    intro pid it h
    rw [descendBegin] at h
    exact Except.noConfusion h
  | succ n ih =>
    intro pid it h
    rw [descendBegin] at h
    cases hf : m.find pid with
    | none =>
      rw [hf] at h
      exact Except.noConfusion h
    | some pg =>
      rw [hf] at h
      cases pg with
      | internal nd =>
        dsimp only at h
        have hb := binaryFindInternal_bounds nd key
        have hne : BinaryFindInternal nd key ≠ -1 := by
          rcases hb with ⟨h1, _⟩ | ⟨_, h2⟩ <;> omega
        rw [if_neg hne] at h
        exact ih _ _ h
      | leaf lp =>
        dsimp only at h
        have hlpsort : ∀ i j, i < j → j < lp.size → lp.keyAt i < lp.keyAt j := by
          rw [Machine.find] at hf
          cases hfind : m.pages.find? (fun e => e.1 = pid) with
          | none => rw [hfind] at hf; exact Option.noConfusion hf
          | some e =>
            rw [hfind] at hf
            dsimp only at hf
            injection hf with hf2
            exact hsorted e (List.mem_of_find?_eq_some hfind) lp hf2
        by_cases hc : BinaryFindLeaf lp key ≠ -1
        · rw [if_pos hc] at h
          injection h with h2
          refine ⟨pid, lp, hf, ?_⟩
          right
          rcases binaryFindLeaf_spec lp key hlpsort with ⟨he, _⟩ | ⟨i, hi, h1, h2', h3⟩
          · exact absurd he hc
          · refine ⟨i, hi, ?_, h1, h2', h3⟩
            rw [← h2, hi]
        · rw [if_neg hc] at h
          rw [not_not] at hc
          injection h with h2
          refine ⟨pid, lp, hf, Or.inl ⟨hc, h2.symm, ?_⟩⟩
          rcases binaryFindLeaf_spec lp key hlpsort with ⟨_, hall⟩ | ⟨i, hi, _⟩
          · exact hall
          · rw [hc] at hi
            exact absurd hi (by omega)

/-- C5: `Begin(key)` descends by internal routing on `key`; on any state
whose leaf pages are strictly sorted, if `Begin(key)` completes it reaches
a leaf of the tree and returns the end iterator exactly when
`BinaryFind(leaf, key) = -1`, i.e. exactly when `key` is strictly below
every key of that reached leaf; otherwise it returns an iterator on that
leaf positioned at `BinaryFind(leaf, key)`, the greatest slot whose key is
`≤ key` (the spec's claim that `End()` is returned iff no key `≥ key`
exists anywhere in the tree is wrong: for a key beyond the rightmost leaf,
`BinaryFind` lands on the last slot and a non-end iterator is returned). -/
theorem c5_begin_lower_bound (m : Machine) (key : Nat) (it : IndexIterator)
    (hsorted : ∀ e ∈ m.pages, ∀ lp, e.2 = Page.leaf lp →
      ∀ i j, i < j → j < lp.size → lp.keyAt i < lp.keyAt j)
    (hrun : BeginKey m key = .ok it) :
    (m.rootId = INVALID_PAGE_ID ∧ it = EndIterator)
    ∨ ∃ pid lp, m.find pid = some (.leaf lp)
        ∧ (it = EndIterator ↔ BinaryFindLeaf lp key = -1)
        ∧ (it = EndIterator ↔ ∀ j, j < lp.size → key < lp.keyAt j)
        ∧ (∀ i : Nat, BinaryFindLeaf lp key = (i : Int) →
            it = { pageId := pid, slotIndex := (i : Int) }
            ∧ i < lp.size ∧ lp.keyAt i ≤ key
            ∧ ∀ j, j < lp.size → lp.keyAt j ≤ key → j ≤ i) := by
  rw [BeginKey] at hrun
  by_cases hroot : m.rootId = INVALID_PAGE_ID
  · rw [if_pos hroot] at hrun
    injection hrun with h2
    exact Or.inl ⟨hroot, h2.symm⟩
  · rw [if_neg hroot] at hrun
    obtain ⟨pid, lp, hfind, hcase⟩ := descendBegin_spec m key hsorted _ _ _ hrun
    right
    refine ⟨pid, lp, hfind, ?_⟩
    rcases hcase with ⟨hm1, hend, hall⟩ | ⟨i, hi, hit, h1, h2, h3⟩
    · exact ⟨⟨fun _ => hm1, fun _ => hend⟩, ⟨fun _ => hall, fun _ => hend⟩,
        fun i hi => by rw [hm1] at hi; exact absurd hi (by omega)⟩
    · have hne : it ≠ EndIterator := by
        intro he
        rw [hit] at he
        simp only [EndIterator, IndexIterator.mk.injEq] at he
        exact absurd he.2 (by omega)
      refine ⟨⟨fun he => absurd he hne, fun hm => by rw [hm] at hi; exact absurd hi (by omega)⟩,
        ⟨fun he => absurd he hne, fun hall => absurd (hall i h1) (Nat.not_lt.mpr h2)⟩,
        fun i2 hi2 => ?_⟩
      rw [hi] at hi2
      have hii : i = i2 := by omega
      subst hii
      exact ⟨hit, h1, h2, h3⟩

theorem tree1234_leaves_sorted :
    ∀ e ∈ tree1234.pages, ∀ lp, e.2 = Page.leaf lp →
      ∀ i j, i < j → j < lp.size → lp.keyAt i < lp.keyAt j := by
  have hp : tree1234.pages =
      [(1, Page.leaf { slots := [(1, 1), (2, 2), (3, 3), (4, 4), (0, 0)], size := 2, maxSize := 4, next := 2 }),
        (2, Page.leaf { slots := [(3, 3), (4, 4)], size := 2, maxSize := 4, next := 2 }),
        (3, Page.internal { slots := [(0, 1), (3, 2)], size := 2, maxSize := 4 })] := by decide
  rw [hp]
  intro e he lp hlp i j hij hj
  simp only [List.mem_cons, List.not_mem_nil, or_false] at he
  rcases he with he | he | he <;> subst he <;> dsimp only at hlp
  · injection hlp with h2
    subst h2
    have hj2 : j < 2 := hj
    have hi0 : i = 0 := by omega
    have hj1 : j = 1 := by omega
    subst hi0
    subst hj1
    decide
  · injection hlp with h2
    subst h2
    have hj2 : j < 2 := hj
    have hi0 : i = 0 := by omega
    have hj1 : j = 1 := by omega
    subst hi0
    subst hj1
    decide
  · exact Page.noConfusion hlp

theorem c5_begin_lower_bound_witness :
    BeginKey tree1234 5 = .ok { pageId := 2, slotIndex := 1 } ∧
    ((tree1234.rootId = INVALID_PAGE_ID
        ∧ ({ pageId := 2, slotIndex := 1 } : IndexIterator) = EndIterator)
      ∨ ∃ pid lp, tree1234.find pid = some (.leaf lp)
        ∧ (({ pageId := 2, slotIndex := 1 } : IndexIterator) = EndIterator
            ↔ BinaryFindLeaf lp 5 = -1)
        ∧ (({ pageId := 2, slotIndex := 1 } : IndexIterator) = EndIterator
            ↔ ∀ j, j < lp.size → 5 < lp.keyAt j)
        ∧ (∀ i : Nat, BinaryFindLeaf lp 5 = (i : Int) →
            ({ pageId := 2, slotIndex := 1 } : IndexIterator)
              = { pageId := pid, slotIndex := (i : Int) }
            ∧ i < lp.size ∧ lp.keyAt i ≤ 5
            ∧ ∀ j, j < lp.size → lp.keyAt j ≤ 5 → j ≤ i)) :=
  ⟨by decide,
    c5_begin_lower_bound tree1234 5 { pageId := 2, slotIndex := 1 }
      tree1234_leaves_sorted (by decide)⟩


/-! ## C10: leaf occupancy bound

Every leaf write performed by `Insert` and `Remove` keeps leaf sizes
strictly below `leaf_max_size`; `InsertIntoParent` / `RemoveFromParent`
write only internal pages, so they frame all leaves. -/

def LeafOk (L : Nat) (e : PageId × Page) : Prop :=
  ∀ lp, e.2 = Page.leaf lp → lp.size + 1 ≤ L ∧ lp.maxSize = L

def LeavesOk (L : Nat) (m : Machine) : Prop :=
  ∀ e ∈ m.pages, LeafOk L e

theorem leafOk_internal (L : Nat) (pid : PageId) (nd : InternalPage) :
    LeafOk L (pid, Page.internal nd) :=
  fun lp h => Page.noConfusion h

theorem mem_psUpdate (pid : PageId) (pg : Page) :
    ∀ (ps : List (PageId × Page)), ∀ e ∈ psUpdate ps pid pg, e ∈ ps ∨ e = (pid, pg) := by
  intro ps
  induction ps with
  | nil =>
    intro e he
    rw [psUpdate] at he
    simp only [List.mem_singleton] at he
    exact Or.inr he
  | cons hd tl ih =>
    intro e he
    rw [psUpdate] at he
    by_cases hq : hd.1 = pid
    · rw [if_pos hq] at he
      rcases List.mem_cons.mp he with he | he
      · exact Or.inr he
      · exact Or.inl (List.mem_cons_of_mem _ he)
    · rw [if_neg hq] at he
      rcases List.mem_cons.mp he with he | he
      · exact Or.inl (he ▸ List.mem_cons_self _ _)
      · rcases ih e he with h | h
        · exact Or.inl (List.mem_cons_of_mem _ h)
        · exact Or.inr h

theorem setPage_leavesOk (L : Nat) (m : Machine) (pid : PageId) (pg : Page)
    (hm : LeavesOk L m) (hpg : LeafOk L (pid, pg)) :
    LeavesOk L (m.setPage pid pg) := by
  intro e he
  rcases mem_psUpdate pid pg m.pages e he with h | h
  · exact hm e h
  · exact h ▸ hpg

theorem insertIntoParentAux_leaf_frame (L : Nat) (ctx : Context) :
    ∀ (gas : Nat) (m : Machine) (key : Nat) (ncid : PageId) (index : Int)
      (m2 : Machine),
    InsertIntoParentAux ctx gas m key ncid index = .ok m2 →
    m2.leafMax = m.leafMax ∧ (LeavesOk L m → LeavesOk L m2) := by
  intro gas
  induction gas with
  | zero =>
    intro m key ncid index m2 h
    rw [InsertIntoParentAux] at h
    by_cases hidx : index < 0
    · rw [if_pos hidx] at h
      cases hw : ctx.writeSet.get? (index + 1).toNat with
      | none => rw [hw] at h; exact Except.noConfusion h
      | some oldRootPid =>
        rw [hw] at h
        dsimp only at h
        by_cases hh : ctx.headerHeld
        · rw [if_pos hh] at h
          injection h with h2
          subst h2
          exact ⟨rfl, fun hm => setPage_leavesOk L _ _ _ hm (leafOk_internal L _ _)⟩
        · rw [if_neg hh] at h
          exact Except.noConfusion h
    · rw [if_neg hidx] at h
      cases hw : ctx.writeSet.get? index.toNat with
      | none => rw [hw] at h; exact Except.noConfusion h
      | some ppid =>
        rw [hw] at h
        dsimp only at h
        cases hf : m.find ppid with
        | none => rw [hf] at h; exact Except.noConfusion h
        | some pg =>
          rw [hf] at h
          cases pg with
          | leaf lp => exact Except.noConfusion h
          | internal parent =>
            dsimp only at h
            by_cases hfull : parent.size ≠ parent.maxSize
            · rw [if_pos hfull] at h
              injection h with h2
              subst h2
              exact ⟨rfl, fun hm => setPage_leavesOk L _ _ _ hm (leafOk_internal L _ _)⟩
            · rw [if_neg hfull] at h
              exact Except.noConfusion h
  | succ n ih =>
    intro m key ncid index m2 h
    rw [InsertIntoParentAux] at h
    by_cases hidx : index < 0
    · rw [if_pos hidx] at h
      cases hw : ctx.writeSet.get? (index + 1).toNat with
      | none => rw [hw] at h; exact Except.noConfusion h
      | some oldRootPid =>
        rw [hw] at h
        dsimp only at h
        by_cases hh : ctx.headerHeld
        · rw [if_pos hh] at h
          injection h with h2
          subst h2
          exact ⟨rfl, fun hm => setPage_leavesOk L _ _ _ hm (leafOk_internal L _ _)⟩
        · rw [if_neg hh] at h
          exact Except.noConfusion h
    · rw [if_neg hidx] at h
      cases hw : ctx.writeSet.get? index.toNat with
      | none => rw [hw] at h; exact Except.noConfusion h
      | some ppid =>
        rw [hw] at h
        dsimp only at h
        cases hf : m.find ppid with
        | none => rw [hf] at h; exact Except.noConfusion h
        | some pg =>
          rw [hf] at h
          cases pg with
          | leaf lp => exact Except.noConfusion h
          | internal parent =>
            dsimp only at h
            by_cases hfull : parent.size ≠ parent.maxSize
            · rw [if_pos hfull] at h
              injection h with h2
              subst h2
              exact ⟨rfl, fun hm => setPage_leavesOk L _ _ _ hm (leafOk_internal L _ _)⟩
            · rw [if_neg hfull] at h
              obtain ⟨hlm, hpres⟩ := ih _ _ _ _ _ h
              refine ⟨hlm, fun hm => hpres ?_⟩
              exact setPage_leavesOk L _ _ _
                (setPage_leavesOk L _ _ _ hm (leafOk_internal L _ _))
                (leafOk_internal L _ _)

theorem removeFromParentAux_leaf_frame (L : Nat) (ctx : Context) :
    ∀ (gas : Nat) (m : Machine) (vi : Nat) (index : Int) (m2 : Machine),
    RemoveFromParentAux ctx gas m vi index = .ok m2 →
    m2.leafMax = m.leafMax ∧ (LeavesOk L m → LeavesOk L m2) := by
  intro gas
  induction gas with
  | zero =>
    intro m vi index m2 h
    rw [RemoveFromParentAux] at h
    by_cases hidx : index < 0
    · rw [if_pos hidx] at h
      exact Except.noConfusion h
    · rw [if_neg hidx] at h
      cases hw : ctx.writeSet.get? index.toNat with
      | none => rw [hw] at h; exact Except.noConfusion h
      | some pid =>
        rw [hw] at h
        dsimp only at h
        cases hf : m.find pid with
        | none => rw [hf] at h; exact Except.noConfusion h
        | some pg =>
          rw [hf] at h
          cases pg with
          | leaf lp => exact Except.noConfusion h
          | internal page0 =>
            dsimp only at h
            split at h
            · injection h with h2
              subst h2
              exact ⟨rfl, fun hm => setPage_leavesOk L _ _ _ hm (leafOk_internal L _ _)⟩
            · split at h
              · split at h
                · split at h
                  · injection h with h2
                    subst h2
                    exact ⟨rfl, fun hm => setPage_leavesOk L _ _ _ hm (leafOk_internal L _ _)⟩
                  · exact Except.noConfusion h
                · injection h with h2
                  subst h2
                  exact ⟨rfl, fun hm => setPage_leavesOk L _ _ _ hm (leafOk_internal L _ _)⟩
              · split at h
                · exact Except.noConfusion h
                · split at h
                  all_goals try exact Except.noConfusion h
                  split at h
                  · split at h
                    · exact Except.noConfusion h
                    · split at h
                      all_goals try exact Except.noConfusion h
                      split at h
                      · exact Except.noConfusion h
                      · injection h with h2
                        subst h2
                        refine ⟨rfl, fun hm => ?_⟩
                        exact setPage_leavesOk L _ _ _
                          (setPage_leavesOk L _ _ _
                            (setPage_leavesOk L _ _ _
                              (setPage_leavesOk L _ _ _ hm (leafOk_internal L _ _))
                              (leafOk_internal L _ _))
                            (leafOk_internal L _ _))
                          (leafOk_internal L _ _)
                  · split at h
                    · exact Except.noConfusion h
                    · split at h
                      all_goals try exact Except.noConfusion h
                      split at h
                      · exact Except.noConfusion h
                      · injection h with h2
                        subst h2
                        refine ⟨rfl, fun hm => ?_⟩
                        exact setPage_leavesOk L _ _ _
                          (setPage_leavesOk L _ _ _
                            (setPage_leavesOk L _ _ _
                              (setPage_leavesOk L _ _ _ hm (leafOk_internal L _ _))
                              (leafOk_internal L _ _))
                            (leafOk_internal L _ _))
                          (leafOk_internal L _ _)
  | succ n ih =>
    intro m vi index m2 h
    rw [RemoveFromParentAux] at h
    by_cases hidx : index < 0
    · rw [if_pos hidx] at h
      exact Except.noConfusion h
    · rw [if_neg hidx] at h
      cases hw : ctx.writeSet.get? index.toNat with
      | none => rw [hw] at h; exact Except.noConfusion h
      | some pid =>
        rw [hw] at h
        dsimp only at h
        cases hf : m.find pid with
        | none => rw [hf] at h; exact Except.noConfusion h
        | some pg =>
          rw [hf] at h
          cases pg with
          | leaf lp => exact Except.noConfusion h
          | internal page0 =>
            dsimp only at h
            split at h
            · injection h with h2
              subst h2
              exact ⟨rfl, fun hm => setPage_leavesOk L _ _ _ hm (leafOk_internal L _ _)⟩
            · split at h
              · split at h
                · split at h
                  · injection h with h2
                    subst h2
                    exact ⟨rfl, fun hm => setPage_leavesOk L _ _ _ hm (leafOk_internal L _ _)⟩
                  · exact Except.noConfusion h
                · injection h with h2
                  subst h2
                  exact ⟨rfl, fun hm => setPage_leavesOk L _ _ _ hm (leafOk_internal L _ _)⟩
              · split at h
                · exact Except.noConfusion h
                · split at h
                  all_goals try exact Except.noConfusion h
                  split at h
                  · split at h
                    · exact Except.noConfusion h
                    · split at h
                      all_goals try exact Except.noConfusion h
                      split at h
                      · obtain ⟨hlm, hp⟩ := ih _ _ _ _ h
                        refine ⟨hlm, fun hm => hp ?_⟩
                        exact setPage_leavesOk L _ _ _
                          (setPage_leavesOk L _ _ _ hm (leafOk_internal L _ _))
                          (leafOk_internal L _ _)
                      · injection h with h2
                        subst h2
                        refine ⟨rfl, fun hm => ?_⟩
                        exact setPage_leavesOk L _ _ _
                          (setPage_leavesOk L _ _ _
                            (setPage_leavesOk L _ _ _
                              (setPage_leavesOk L _ _ _ hm (leafOk_internal L _ _))
                              (leafOk_internal L _ _))
                            (leafOk_internal L _ _))
                          (leafOk_internal L _ _)
                  · split at h
                    · exact Except.noConfusion h
                    · split at h
                      all_goals try exact Except.noConfusion h
                      split at h
                      · obtain ⟨hlm, hp⟩ := ih _ _ _ _ h
                        refine ⟨hlm, fun hm => hp ?_⟩
                        exact setPage_leavesOk L _ _ _
                          (setPage_leavesOk L _ _ _ hm (leafOk_internal L _ _))
                          (leafOk_internal L _ _)
                      · injection h with h2
                        subst h2
                        refine ⟨rfl, fun hm => ?_⟩
                        exact setPage_leavesOk L _ _ _
                          (setPage_leavesOk L _ _ _
                            (setPage_leavesOk L _ _ _
                              (setPage_leavesOk L _ _ _ hm (leafOk_internal L _ _))
                              (leafOk_internal L _ _))
                            (leafOk_internal L _ _))
                          (leafOk_internal L _ _)

theorem find_mem (m : Machine) (pid : PageId) (pg : Page)
    (h : m.find pid = some pg) : ∃ e ∈ m.pages, e.2 = pg := by
  rw [Machine.find] at h
  cases hfind : m.pages.find? (fun e => e.1 = pid) with
  | none => rw [hfind] at h; exact Option.noConfusion h
  | some e =>
    rw [hfind] at h
    dsimp only at h
    injection h with h2
    exact ⟨e, List.mem_of_find?_eq_some hfind, h2⟩

theorem exceptBind_ok_elim {ε α β : Type} {x : Except ε α} {f : α → Except ε β}
    {r : β} (h : (x >>= f) = .ok r) : ∃ a, x = .ok a ∧ f a = .ok r := by
  cases x with
  | error e => rw [exceptBindErr] at h; exact Except.noConfusion h
  | ok a => exact ⟨a, rfl, by rw [exceptBindOk] at h; exact h⟩

theorem leafInsertAt_size (lp : LeafPage) (i k v : Nat) :
    (leafInsertAt lp i k v).size = lp.size + 1 := rfl

theorem leafInsertAt_maxSize (lp : LeafPage) (i k v : Nat) :
    (leafInsertAt lp i k v).maxSize = lp.maxSize := rfl

theorem Insert_leavesOk (L : Nat) (hL : 2 ≤ L) (m : Machine)
    (hlm : m.leafMax = L) (hm : LeavesOk L m) (k v : Nat)
    (m2 : Machine) (b : Bool) (h : Insert m k v = .ok (m2, b)) :
    m2.leafMax = L ∧ LeavesOk L m2 := by
  rw [Insert] at h
  by_cases hroot : m.rootId = INVALID_PAGE_ID
  · rw [if_pos hroot] at h
    dsimp only [Machine.alloc] at h
    injection h with h2
    injection h2 with ha hb
    subst ha
    refine ⟨hlm, ?_⟩
    refine setPage_leavesOk L _ _ _ hm ?_
    intro lp' hh
    injection hh with he
    subst he
    exact ⟨by dsimp only [LeafPage.setAt]; omega, hlm⟩
  · rw [if_neg hroot] at h
    cases hfr : m.find m.rootId with
    | none => rw [hfr] at h; exact Except.noConfusion h
    | some rootPg =>
      rw [hfr] at h
      dsimp only at h
      obtain ⟨ctx, hctx, h⟩ := exceptBind_ok_elim h
      cases hlast : ctx.writeSet.getLast? with
      | none => rw [hlast] at h; exact Except.noConfusion h
      | some leafPid =>
        rw [hlast] at h
        dsimp only at h
        cases hfl : m.find leafPid with
        | none => rw [hfl] at h; exact Except.noConfusion h
        | some pg =>
          rw [hfl] at h
          cases pg with
          | internal nd => exact Except.noConfusion h
          | leaf lp =>
            dsimp only at h
            obtain ⟨e, hemem, he2⟩ := find_mem m leafPid (.leaf lp) hfl
            obtain ⟨hsize, hmax⟩ := hm e hemem lp he2
            split at h
            · injection h with h2
              injection h2 with ha hb
              subst ha
              exact ⟨hlm, hm⟩
            · split at h
              · rename_i hsz
                injection h with h2
                injection h2 with ha hb
                subst ha
                refine ⟨hlm, setPage_leavesOk L _ _ _ hm ?_⟩
                intro lp' hh
                injection hh with he
                subst he
                simp only [leafInsertAt_size, leafInsertAt_maxSize] at hsz ⊢
                omega
              · rename_i hsz
                obtain ⟨m3, hip, h⟩ := exceptBind_ok_elim h
                injection h with h2
                injection h2 with ha hb
                subst ha
                rw [InsertIntoParent] at hip
                obtain ⟨hlm3, hp3⟩ :=
                  insertIntoParentAux_leaf_frame L ctx _ _ _ _ _ _ hip
                refine ⟨by rw [hlm3]; exact hlm, hp3 ?_⟩
                refine setPage_leavesOk L _ _ _
                  (setPage_leavesOk L _ _ _ hm ?_) ?_
                · intro lp' hh
                  injection hh with he
                  subst he
                  simp only [leafInsertAt_size, leafInsertAt_maxSize,
                    LeafPage.minSize] at hsz ⊢
                  omega
                · intro lp' hh
                  injection hh with he
                  subst he
                  simp only [leafInsertAt_size, leafInsertAt_maxSize,
                    LeafPage.minSize] at hsz ⊢
                  omega

theorem leafOk_of_size (L : Nat) (pid : PageId) (lp : LeafPage)
    (h1 : lp.size + 1 ≤ L) (h2 : lp.maxSize = L) : LeafOk L (pid, .leaf lp) := by
  intro lp' hh
  injection hh with he
  subst he
  exact ⟨h1, h2⟩

theorem Remove_leavesOk (L : Nat) (hL : 2 ≤ L) (m : Machine)
    (hlm : m.leafMax = L) (hm : LeavesOk L m) (key : Nat)
    (m2 : Machine) (h : Remove m key = .ok m2) :
    m2.leafMax = L ∧ LeavesOk L m2 := by
  rw [Remove] at h
  by_cases hroot : m.rootId = INVALID_PAGE_ID
  · rw [if_pos hroot] at h
    injection h with h2
    subst h2
    exact ⟨hlm, hm⟩
  · rw [if_neg hroot] at h
    cases hfr : m.find m.rootId with
    | none => rw [hfr] at h; exact Except.noConfusion h
    | some rootPg =>
      rw [hfr] at h
      dsimp only at h
      obtain ⟨ctx, hctx, h⟩ := exceptBind_ok_elim h
      cases hlast : ctx.writeSet.getLast? with
      | none => rw [hlast] at h; exact Except.noConfusion h
      | some leafPid =>
        rw [hlast] at h
        dsimp only at h
        cases hfl : m.find leafPid with
        | none => rw [hfl] at h; exact Except.noConfusion h
        | some pg =>
          rw [hfl] at h
          cases pg with
          | internal nd => exact Except.noConfusion h
          | leaf lp =>
            dsimp only at h
            obtain ⟨e, hemem, he2⟩ := find_mem m leafPid (.leaf lp) hfl
            obtain ⟨hsize, hmax⟩ := hm e hemem lp he2
            split at h
            · injection h with h2
              subst h2
              exact ⟨hlm, hm⟩
            · split at h
              · injection h with h2
                subst h2
                refine ⟨hlm, setPage_leavesOk L _ _ _ hm
                  (leafOk_of_size L _ _ (by dsimp only; omega) (by dsimp only; omega))⟩
              · split at h
                · split at h
                  · split at h
                    · injection h with h2
                      subst h2
                      refine ⟨hlm, setPage_leavesOk L _ _ _ hm
                        (leafOk_of_size L _ _ (by dsimp only; omega) (by dsimp only; omega))⟩
                    · exact Except.noConfusion h
                  · injection h with h2
                    subst h2
                    refine ⟨hlm, setPage_leavesOk L _ _ _ hm
                      (leafOk_of_size L _ _ (by dsimp only; omega) (by dsimp only; omega))⟩
                · split at h
                  · exact Except.noConfusion h
                  · split at h
                    all_goals try exact Except.noConfusion h
                    split at h
                    · split at h
                      · exact Except.noConfusion h
                      · split at h
                        all_goals try exact Except.noConfusion h
                        rename_i rb hfrb
                        split at h
                        · rename_i hms
                          rw [RemoveFromParent] at h
                          obtain ⟨hlm4, hp4⟩ :=
                            removeFromParentAux_leaf_frame L ctx _ _ _ _ _ h
                          refine ⟨by rw [hlm4]; exact hlm, hp4 ?_⟩
                          refine setPage_leavesOk L _ _ _
                            (setPage_leavesOk L _ _ _ hm
                              (leafOk_of_size L _ _ (by dsimp only; omega)
                                (by dsimp only; omega))) ?_
                          refine leafOk_of_size L _ _ ?_ (by dsimp only; omega)
                          dsimp only at hms ⊢
                          omega
                        · rename_i hms
                          injection h with h2
                          subst h2
                          obtain ⟨e2, he2mem, he2eq⟩ := find_mem _ _ _ hfrb
                          rcases mem_psUpdate _ _ _ e2 he2mem with hcase | hcase
                          · obtain ⟨hrbsize, hrbmax⟩ := hm e2 hcase rb he2eq
                            refine ⟨hlm, setPage_leavesOk L _ _ _
                              (setPage_leavesOk L _ _ _
                                (setPage_leavesOk L _ _ _
                                  (setPage_leavesOk L _ _ _ hm
                                    (leafOk_of_size L _ _ (by dsimp only; omega)
                                      (by dsimp only; omega)))
                                  (leafOk_of_size L _ _ (by dsimp only; omega)
                                    (by dsimp only; omega)))
                                (leafOk_of_size L _ _ (by dsimp only; omega)
                                  (by dsimp only; omega)))
                              (leafOk_internal L _ _)⟩
                          · rw [hcase] at he2eq
                            injection he2eq with he3
                            subst he3
                            refine ⟨hlm, setPage_leavesOk L _ _ _
                              (setPage_leavesOk L _ _ _
                                (setPage_leavesOk L _ _ _
                                  (setPage_leavesOk L _ _ _ hm
                                    (leafOk_of_size L _ _ (by dsimp only; omega)
                                      (by dsimp only; omega)))
                                  (leafOk_of_size L _ _ (by dsimp only; omega)
                                    (by dsimp only; omega)))
                                (leafOk_of_size L _ _ (by dsimp only; omega)
                                  (by dsimp only; omega)))
                              (leafOk_internal L _ _)⟩
                    · split at h
                      · exact Except.noConfusion h
                      · split at h
                        all_goals try exact Except.noConfusion h
                        rename_i lb hflb
                        obtain ⟨e2, he2mem, he2eq⟩ := find_mem _ _ _ hflb
                        split at h
                        · rename_i hms
                          rw [RemoveFromParent] at h
                          obtain ⟨hlm4, hp4⟩ :=
                            removeFromParentAux_leaf_frame L ctx _ _ _ _ _ h
                          refine ⟨by rw [hlm4]; exact hlm, hp4 ?_⟩
                          rcases mem_psUpdate _ _ _ e2 he2mem with hcase | hcase
                          · obtain ⟨hlbsize, hlbmax⟩ := hm e2 hcase lb he2eq
                            refine setPage_leavesOk L _ _ _
                              (setPage_leavesOk L _ _ _ hm
                                (leafOk_of_size L _ _ (by dsimp only; omega)
                                  (by dsimp only; omega))) ?_
                            refine leafOk_of_size L _ _ ?_ (by dsimp only; omega)
                            dsimp only at hms ⊢
                            omega
                          · rw [hcase] at he2eq
                            injection he2eq with he3
                            subst he3
                            refine setPage_leavesOk L _ _ _
                              (setPage_leavesOk L _ _ _ hm
                                (leafOk_of_size L _ _ (by dsimp only; omega)
                                  (by dsimp only; omega))) ?_
                            refine leafOk_of_size L _ _ ?_ (by dsimp only; omega)
                            dsimp only at hms ⊢
                            omega
                        · rename_i hms
                          injection h with h2
                          subst h2
                          rcases mem_psUpdate _ _ _ e2 he2mem with hcase | hcase
                          · obtain ⟨hlbsize, hlbmax⟩ := hm e2 hcase lb he2eq
                            refine ⟨hlm, setPage_leavesOk L _ _ _
                              (setPage_leavesOk L _ _ _
                                (setPage_leavesOk L _ _ _
                                  (setPage_leavesOk L _ _ _ hm
                                    (leafOk_of_size L _ _ (by dsimp only; omega)
                                      (by dsimp only; omega)))
                                  (leafOk_of_size L _ _ (by dsimp only; omega)
                                    (by dsimp only; omega)))
                                (leafOk_of_size L _ _ (by dsimp only; omega)
                                  (by dsimp only; omega)))
                              (leafOk_internal L _ _)⟩
                          · rw [hcase] at he2eq
                            injection he2eq with he3
                            subst he3
                            refine ⟨hlm, setPage_leavesOk L _ _ _
                              (setPage_leavesOk L _ _ _
                                (setPage_leavesOk L _ _ _
                                  (setPage_leavesOk L _ _ _ hm
                                    (leafOk_of_size L _ _ (by dsimp only; omega)
                                      (by dsimp only; omega)))
                                  (leafOk_of_size L _ _ (by dsimp only; omega)
                                    (by dsimp only; omega)))
                                (leafOk_of_size L _ _ (by dsimp only; omega)
                                  (by dsimp only; omega)))
                              (leafOk_internal L _ _)⟩

/-- States reachable from `m0` by completed `Insert` / `Remove` calls. -/
inductive Reaches (m0 : Machine) : Machine → Prop
  | refl : Reaches m0 m0
  | insert {m m2 : Machine} {k v : Nat} {b : Bool} :
      Reaches m0 m → Insert m k v = .ok (m2, b) → Reaches m0 m2
  | remove {m m2 : Machine} {k : Nat} :
      Reaches m0 m → Remove m k = .ok m2 → Reaches m0 m2

/-- C10: after every sequence of completed Insert / Remove operations on a
freshly constructed tree with leaf capacity `L ≥ 2`, every leaf page of
the resulting state has `size ≤ L - 1`, strictly below `leaf_max_size`:
the insertion path splits a leaf exactly when the insertion would bring
its size up to `leaf_max_size`, and the removal path merges two leaves
only when their combined size is strictly below `leaf_max_size`. -/
theorem c10_leaf_size_bound (L I : Nat) (hL : 2 ≤ L) (m : Machine)
    (hr : Reaches (mkTree L I) m) :
    ∀ e ∈ m.pages, ∀ lp, e.2 = Page.leaf lp → lp.size < L := by
  have key : m.leafMax = L ∧ LeavesOk L m := by
    induction hr with
    | refl => exact ⟨rfl, fun e he => by exact absurd he (by simp [mkTree])⟩
    | insert hprev hins ih => exact Insert_leavesOk L hL _ ih.1 ih.2 _ _ _ _ hins
    | remove hprev hrem ih => exact Remove_leavesOk L hL _ ih.1 ih.2 _ _ hrem
  intro e he lp hlp
  have hb := (key.2 e he lp hlp).1
  omega

/-- Witness: the 1..8 insert sequence on a fresh `(4,4)` tree — which
splits leaves three times and the root once — satisfies the leaf bound,
instantiated at the leftmost leaf of the resulting state `tree8`. -/
theorem c10_leaf_size_bound_witness :
    ({ slots := [(1, 1), (2, 2), (3, 3), (4, 4), (0, 0)], size := 2, maxSize := 4, next := 2 } : LeafPage).size < 4 :=
  c10_leaf_size_bound 4 4 (by decide) tree8
    (Reaches.insert (Reaches.insert (Reaches.insert (Reaches.insert
      (Reaches.insert (Reaches.insert (Reaches.insert (Reaches.insert
        Reaches.refl
        (show Insert (mkTree 4 4) 1 1 = .ok (tree8s1, true) from by decide))
        (show Insert tree8s1 2 2 = .ok (tree8s2, true) from by decide))
        (show Insert tree8s2 3 3 = .ok (tree8s3, true) from by decide))
        (show Insert tree8s3 4 4 = .ok (tree8s4, true) from by decide))
        (show Insert tree8s4 5 5 = .ok (tree8s5, true) from by decide))
        (show Insert tree8s5 6 6 = .ok (tree8s6, true) from by decide))
        (show Insert tree8s6 7 7 = .ok (tree8s7, true) from by decide))
        (show Insert tree8s7 8 8 = .ok (tree8, true) from by decide))
    (1, Page.leaf { slots := [(1, 1), (2, 2), (3, 3), (4, 4), (0, 0)], size := 2, maxSize := 4, next := 2 })
    (by decide)
    { slots := [(1, 1), (2, 2), (3, 3), (4, 4), (0, 0)], size := 2, maxSize := 4, next := 2 }
    rfl

/-! ## C7: header latch at root-reaching structural changes

The header guard is dropped only after observing a safe page, and the
parent-fixing recursions can reach their header dereference only through
a chain of unsafe pages, so the dereference always happens with the
guard engaged. -/

theorem find?_psUpdate_ne (pid q : PageId) (pg : Page) (hne : q ≠ pid) :
    ∀ ps : List (PageId × Page),
    (psUpdate ps pid pg).find? (fun e => e.1 = q) = ps.find? (fun e => e.1 = q) := by
  intro ps
  induction ps with
  | nil =>
    rw [psUpdate]
    simp [List.find?, hne.symm]
  | cons hd tl ih =>
    rw [psUpdate]
    by_cases hq : hd.1 = pid
    · rw [if_pos hq]
      have h1 : (decide (pid = q)) = false := by
        simp only [decide_eq_false_iff_not]
        exact fun hh => hne hh.symm
      have h2 : (decide (hd.1 = q)) = false := by
        simp only [decide_eq_false_iff_not]
        rw [hq]
        exact fun hh => hne hh.symm
      rw [List.find?]
      rw [List.find?]
      simp only [h1, h2]
    · rw [if_neg hq]
      rw [List.find?]
      rw [List.find?]
      cases hd1 : (decide (hd.1 = q)) with
      | true => rfl
      | false => exact ih

theorem find_setPage_ne (m : Machine) (pid q : PageId) (pg : Page)
    (hne : q ≠ pid) : (m.setPage pid pg).find q = m.find q := by
  rw [Machine.find, Machine.find]
  rw [show (m.setPage pid pg).pages = psUpdate m.pages pid pg from rfl]
  rw [find?_psUpdate_ne pid q pg hne]

theorem getD_mem_of_lt {l : List PageId} {j : Nat} (hj : j < l.length)
    (d : PageId) : l.getD j d ∈ l := by
  rw [List.getD_eq_getElem l d hj]
  exact List.getElem_mem hj

theorem getD_ne_of_nodup {l : List PageId} (hnd : l.Nodup) {i j : Nat}
    (hi : i < l.length) (hj : j < l.length) (hne : i ≠ j) (d : PageId) :
    l.getD i d ≠ l.getD j d := by
  rw [List.getD_eq_getElem l d hi, List.getD_eq_getElem l d hj]
  intro heq
  exact hne ((List.Nodup.getElem_inj_iff hnd).mp heq)

theorem insertIntoParentAux_no_headerFault (m : Machine) (ctx : Context)
    (hnodup : ctx.writeSet.Nodup)
    (hfresh : ∀ p ∈ ctx.writeSet, p < m.nextPid)
    (hsafe : ctx.headerHeld = false →
      ∃ pg, m.find (ctx.writeSet.getD 0 (-1)) = some pg
        ∧ IsSafePage pg .Insertion false = true) :
    ∀ (gas : Nat) (M : Machine) (key : Nat) (ncid : PageId) (index : Int),
    (∀ j : Nat, (j : Int) ≤ index →
      M.find (ctx.writeSet.getD j (-1)) = m.find (ctx.writeSet.getD j (-1))) →
    m.nextPid ≤ M.nextPid →
    (index < 0 → ctx.headerHeld = true) →
    InsertIntoParentAux ctx gas M key ncid index ≠ .error .headerFault := by
  intro gas
  induction gas with
  | zero =>
    intro M key ncid index hpres hnext hneg hc
    rw [InsertIntoParentAux] at hc
    by_cases hidx : index < 0
    · rw [if_pos hidx] at hc
      cases hw : ctx.writeSet.get? (index + 1).toNat with
      | none =>
        rw [hw] at hc
        injection hc with h2
        exact Err.noConfusion h2
      | some oldRootPid =>
        rw [hw] at hc
        dsimp only at hc
        rw [hneg hidx] at hc
        rw [if_pos rfl] at hc
        exact Except.noConfusion hc
    · rw [if_neg hidx] at hc
      cases hw : ctx.writeSet.get? index.toNat with
      | none =>
        rw [hw] at hc
        injection hc with h2
        exact Err.noConfusion h2
      | some ppid =>
        rw [hw] at hc
        dsimp only at hc
        cases hf2 : M.find ppid with
        | none =>
          rw [hf2] at hc
          injection hc with h2
          exact Err.noConfusion h2
        | some pg =>
          rw [hf2] at hc
          cases pg with
          | leaf lp =>
            injection hc with h2
            exact Err.noConfusion h2
          | internal parent =>
            dsimp only at hc
            by_cases hfull : parent.size ≠ parent.maxSize
            · rw [if_pos hfull] at hc
              exact Except.noConfusion hc
            · rw [if_neg hfull] at hc
              injection hc with h2
              exact Err.noConfusion h2
  | succ n ih =>
    intro M key ncid index hpres hnext hneg hc
    rw [InsertIntoParentAux] at hc
    by_cases hidx : index < 0
    · rw [if_pos hidx] at hc
      cases hw : ctx.writeSet.get? (index + 1).toNat with
      | none =>
        rw [hw] at hc
        injection hc with h2
        exact Err.noConfusion h2
      | some oldRootPid =>
        rw [hw] at hc
        dsimp only at hc
        rw [hneg hidx] at hc
        rw [if_pos rfl] at hc
        exact Except.noConfusion hc
    · rw [if_neg hidx] at hc
      cases hw : ctx.writeSet.get? index.toNat with
      | none =>
        rw [hw] at hc
        injection hc with h2
        exact Err.noConfusion h2
      | some ppid =>
        rw [hw] at hc
        dsimp only at hc
        cases hf2 : M.find ppid with
        | none =>
          rw [hf2] at hc
          injection hc with h2
          exact Err.noConfusion h2
        | some pg =>
          rw [hf2] at hc
          cases pg with
          | leaf lp =>
            injection hc with h2
            exact Err.noConfusion h2
          | internal parent =>
            dsimp only at hc
            by_cases hfull : parent.size ≠ parent.maxSize
            · rw [if_pos hfull] at hc
              exact Except.noConfusion hc
            · rw [if_neg hfull] at hc
              dsimp only [Machine.alloc] at hc
              have hlen : index.toNat < ctx.writeSet.length := by
                by_contra hlen
                rw [List.get?_eq_none.mpr (by omega)] at hw
                exact Option.noConfusion hw
              have hgd : ctx.writeSet.getD index.toNat (-1) = ppid := by
                rw [List.getD_eq_getElem?_getD, ← List.get?_eq_getElem?, hw]
                rfl
              have hH : index = 0 → ctx.headerHeld = true := by
                intro h0
                cases hhh : ctx.headerHeld with
                | true => rfl
                | false =>
                  obtain ⟨pg2, hpg2, hsafe2⟩ := hsafe hhh
                  have h00 : index.toNat = 0 := by omega
                  rw [← h00] at hpg2
                  have hp0 := hpres index.toNat (by omega)
                  rw [hpg2, hgd, hf2] at hp0
                  injection hp0 with hp1
                  subst hp1
                  simp [IsSafePage, Page.isLeafPage, Page.getSize,
                    Page.getMaxSize] at hsafe2
                  omega
              refine ih _ _ _ (index - 1) ?_ ?_ ?_ hc
              · intro j hj
                have hjlen : j < ctx.writeSet.length := by omega
                have hne1 : ctx.writeSet.getD j (-1) ≠ ppid := by
                  rw [← hgd]
                  exact getD_ne_of_nodup hnodup hjlen hlen (by omega) (-1)
                have hne2 : ctx.writeSet.getD j (-1) ≠ M.nextPid := by
                  intro heq
                  have h5 := hfresh _ (getD_mem_of_lt hjlen (-1))
                  rw [heq] at h5
                  exact absurd hnext (Int.not_le.mpr h5)
                rw [find_setPage_ne _ _ _ _ hne2, find_setPage_ne _ _ _ _ hne1]
                exact hpres j (by omega)
              · exact le_trans hnext (Int.le.intro 1 rfl)
              · intro hlt
                exact hH (by omega)

theorem removeFromParentAux_no_headerFault (m : Machine) (ctx : Context)
    (hnodup : ctx.writeSet.Nodup)
    (hroot : ctx.headerHeld = false →
      ∃ pg, m.find ctx.rootPageId = some pg
        ∧ IsSafePage pg .Removal true = true) :
    ∀ (gas : Nat) (M : Machine) (vi : Nat) (index : Int),
    (∀ j : Nat, (j : Int) ≤ index →
      M.find (ctx.writeSet.getD j (-1)) = m.find (ctx.writeSet.getD j (-1))) →
    RemoveFromParentAux ctx gas M vi index ≠ .error .headerFault := by
  intro gas
  induction gas with
  | zero =>
    intro M vi index hpres hc
    rw [RemoveFromParentAux] at hc
    by_cases hidx : index < 0
    · rw [if_pos hidx] at hc
      injection hc with h2
      exact Err.noConfusion h2
    · rw [if_neg hidx] at hc
      cases hw : ctx.writeSet.get? index.toNat with
      | none =>
        rw [hw] at hc
        injection hc with h2
        exact Err.noConfusion h2
      | some pid =>
        rw [hw] at hc
        dsimp only at hc
        cases hf2 : M.find pid with
        | none =>
          rw [hf2] at hc
          injection hc with h2
          exact Err.noConfusion h2
        | some pg =>
          rw [hf2] at hc
          cases pg with
          | leaf lp =>
            injection hc with h2
            exact Err.noConfusion h2
          | internal page0 =>
            dsimp only at hc
            have hlen : index.toNat < ctx.writeSet.length := by
              by_contra hlen
              rw [List.get?_eq_none.mpr (by omega)] at hw
              exact Option.noConfusion hw
            have hgd : ctx.writeSet.getD index.toNat (-1) = pid := by
              rw [List.getD_eq_getElem?_getD, ← List.get?_eq_getElem?, hw]
              rfl
            split at hc
            · exact Except.noConfusion hc
            · split at hc
              · split at hc
                · split at hc
                  · exact Except.noConfusion hc
                  · rename_i hge hisroot hs1 hH
                    have hhh : ctx.headerHeld = false := by
                      cases h6 : ctx.headerHeld with
                      | true => exact absurd h6 hH
                      | false => rfl
                    obtain ⟨pg2, hpg2, hsafe2⟩ := hroot hhh
                    have hpid : pid = ctx.rootPageId := by
                      simpa [Context.isRootPage] using hisroot
                    have hp0 := hpres index.toNat (by omega)
                    rw [hgd, hf2, hpid, hpg2] at hp0
                    injection hp0 with hp1
                    subst hp1
                    simp [IsSafePage, Page.isLeafPage, Page.getSize] at hsafe2
                    omega
                · exact Except.noConfusion hc
              · split at hc
                · injection hc with h2
                  exact Err.noConfusion h2
                · split at hc
                  all_goals try (injection hc with h2; exact Err.noConfusion h2)
                  split at hc
                  · split at hc
                    · injection hc with h2
                      exact Err.noConfusion h2
                    · split at hc
                      all_goals try (injection hc with h2; exact Err.noConfusion h2)
                      split at hc
                      · injection hc with h2
                        exact Err.noConfusion h2
                      · exact Except.noConfusion hc
                  · split at hc
                    · injection hc with h2
                      exact Err.noConfusion h2
                    · split at hc
                      all_goals try (injection hc with h2; exact Err.noConfusion h2)
                      split at hc
                      · injection hc with h2
                        exact Err.noConfusion h2
                      · exact Except.noConfusion hc
  | succ n ih =>
    intro M vi index hpres hc
    rw [RemoveFromParentAux] at hc
    by_cases hidx : index < 0
    · rw [if_pos hidx] at hc
      injection hc with h2
      exact Err.noConfusion h2
    · rw [if_neg hidx] at hc
      cases hw : ctx.writeSet.get? index.toNat with
      | none =>
        rw [hw] at hc
        injection hc with h2
        exact Err.noConfusion h2
      | some pid =>
        rw [hw] at hc
        dsimp only at hc
        cases hf2 : M.find pid with
        | none =>
          rw [hf2] at hc
          injection hc with h2
          exact Err.noConfusion h2
        | some pg =>
          rw [hf2] at hc
          cases pg with
          | leaf lp =>
            injection hc with h2
            exact Err.noConfusion h2
          | internal page0 =>
            dsimp only at hc
            have hlen : index.toNat < ctx.writeSet.length := by
              by_contra hlen
              rw [List.get?_eq_none.mpr (by omega)] at hw
              exact Option.noConfusion hw
            have hgd : ctx.writeSet.getD index.toNat (-1) = pid := by
              rw [List.getD_eq_getElem?_getD, ← List.get?_eq_getElem?, hw]
              rfl
            split at hc
            · exact Except.noConfusion hc
            · split at hc
              · split at hc
                · split at hc
                  · exact Except.noConfusion hc
                  · rename_i hge hisroot hs1 hH
                    have hhh : ctx.headerHeld = false := by
                      cases h6 : ctx.headerHeld with
                      | true => exact absurd h6 hH
                      | false => rfl
                    obtain ⟨pg2, hpg2, hsafe2⟩ := hroot hhh
                    have hpid : pid = ctx.rootPageId := by
                      simpa [Context.isRootPage] using hisroot
                    have hp0 := hpres index.toNat (by omega)
                    rw [hgd, hf2, hpid, hpg2] at hp0
                    injection hp0 with hp1
                    subst hp1
                    simp [IsSafePage, Page.isLeafPage, Page.getSize] at hsafe2
                    omega
                · exact Except.noConfusion hc
              · split at hc
                · injection hc with h2
                  exact Err.noConfusion h2
                · split at hc
                  all_goals try (injection hc with h2; exact Err.noConfusion h2)
                  split at hc
                  · split at hc
                    · injection hc with h2
                      exact Err.noConfusion h2
                    · split at hc
                      all_goals try (injection hc with h2; exact Err.noConfusion h2)
                      split at hc
                      · refine ih _ _ (index - 1) ?_ hc
                        intro j hj
                        have hjlen : j < ctx.writeSet.length := by omega
                        have hne1 : ctx.writeSet.getD j (-1) ≠ pid := by
                          rw [← hgd]
                          exact getD_ne_of_nodup hnodup hjlen hlen (by omega) (-1)
                        rw [find_setPage_ne _ _ _ _ hne1, find_setPage_ne _ _ _ _ hne1]
                        exact hpres j (by omega)
                      · exact Except.noConfusion hc
                  · split at hc
                    · injection hc with h2
                      exact Err.noConfusion h2
                    · rename_i hnc
                      split at hc
                      all_goals try (injection hc with h2; exact Err.noConfusion h2)
                      split at hc
                      · refine ih _ _ (index - 1) ?_ hc
                        intro j hj
                        have hjlen : j < ctx.writeSet.length := by omega
                        have hne1 : ctx.writeSet.getD j (-1) ≠ pid := by
                          rw [← hgd]
                          exact getD_ne_of_nodup hnodup hjlen hlen (by omega) (-1)
                        rw [find_setPage_ne _ _ _ _ ?hne3,
                          find_setPage_ne _ _ _ _ hne1]
                        case hne3 =>
                          intro heq
                          exact hnc (List.elem_eq_true_of_mem
                            (heq ▸ getD_mem_of_lt hjlen (-1)))
                        exact hpres j (by omega)
                      · exact Except.noConfusion hc

/-- C7: root-reaching structural changes happen under the header latch.
For a context satisfying the invariants that the latch-crabbing writer
descent establishes — the write set is a duplicate-free list of pages
below the allocation frontier, and the header guard is released only when
the retained head of the write set was a safe page (`Insert`'s root
pre-test establishes this and `FindLeafPage` preserves it,
`findLeafPage_preserves_head_safety`) — neither `InsertIntoParent` (root
split, `index < 0`) nor `RemoveFromParent` (root collapse at size 1) can
ever reach the disengaged-header dereference: the `headerFault` outcome
is impossible, so every `root_page_id` update happens under the header
latch.  In particular the guard for a direct past-root call (`index < 0`,
the split of a root leaf — the only way `Insert` produces such a call,
since a singleton write set means the leaf is the root) is derived, not
assumed: such a call is triggered only by a split, i.e. only when the
leaf at the head of the write set has reached `max_size` (`hfull`), and a
full page is not safe, so the pre-test discipline `hsafeI` forces
`headerHeld = true` there. -/
theorem c7_root_change_under_header_latch (m : Machine) (ctx : Context)
    (hnodup : ctx.writeSet.Nodup)
    (hfresh : ∀ p ∈ ctx.writeSet, p < m.nextPid)
    (hsafeI : ctx.headerHeld = false →
      ∃ pg, m.find (ctx.writeSet.getD 0 (-1)) = some pg
        ∧ IsSafePage pg .Insertion false = true)
    (hsafeR : ctx.headerHeld = false →
      ∃ pg, m.find ctx.rootPageId = some pg
        ∧ IsSafePage pg .Removal true = true)
    (key : Nat) (ncid : PageId) (vi : Nat) (index : Int)
    (hfull : index < 0 →
      ∃ lp, m.find (ctx.writeSet.getD 0 (-1)) = some (Page.leaf lp)
        ∧ lp.maxSize ≤ lp.size + 1) :
    InsertIntoParent m ctx key ncid index ≠ .error .headerFault
    ∧ RemoveFromParent m ctx vi index ≠ .error .headerFault := by
  have hneg : index < 0 → ctx.headerHeld = true := by
    intro hlt
    cases hhh : ctx.headerHeld with
    | true => rfl
    | false =>
      obtain ⟨pg, hpg, hsafe⟩ := hsafeI hhh
      obtain ⟨lp, hlp, hful⟩ := hfull hlt
      rw [hlp] at hpg
      injection hpg with hpg2
      subst hpg2
      simp [IsSafePage, Page.isLeafPage, Page.getSize, Page.getMaxSize] at hsafe
      omega
  constructor
  · rw [InsertIntoParent]
    exact insertIntoParentAux_no_headerFault m ctx hnodup hfresh hsafeI
      (index + 1).toNat m key ncid index (fun j hj => rfl) le_rfl hneg
  · rw [RemoveFromParent]
    exact removeFromParentAux_no_headerFault m ctx hnodup hsafeR
      (index + 1).toNat m vi index (fun j hj => rfl)

/-- Witness: on the two-level 8-key tree with the header guard released —
legitimately, since the write-set head (leaf `1`, size 2 of max 4) is
insertion-safe and the root (internal `3`, size 4 > 2) is removal-safe —
so both safety hypotheses are discharged at concrete pages of `tree8`. -/
theorem c7_root_change_under_header_latch_witness :
    InsertIntoParent tree8 { headerHeld := false, rootPageId := 3, readSet := [], writeSet := [1, 2] } 9 6 0 ≠ .error .headerFault
    ∧ RemoveFromParent tree8 { headerHeld := false, rootPageId := 3, readSet := [], writeSet := [1, 2] } 1 0 ≠ .error .headerFault :=
  c7_root_change_under_header_latch tree8
    { headerHeld := false, rootPageId := 3, readSet := [], writeSet := [1, 2] }
    (by decide) (by decide)
    (fun _ => ⟨Page.leaf { slots := [(1, 1), (2, 2), (3, 3), (4, 4), (0, 0)], size := 2, maxSize := 4, next := 2 }, by decide, by decide⟩)
    (fun _ => ⟨Page.internal { slots := [(0, 1), (3, 2), (5, 4), (7, 5)], size := 4, maxSize := 4 }, by decide, by decide⟩)
    9 6 1 0 (fun h => absurd h (by decide))

theorem findLeafPage_preserves_head_safety (m : Machine) (key : Nat)
    (op : Operation) :
    ∀ (fuel : Nat) (ctx ctx2 : Context),
    FindLeafPage m key op ctx fuel = .ok ctx2 →
    ctx2.headerHeld = ctx.headerHeld
    ∧ ((ctx.headerHeld = false →
        ∃ pg, m.find (ctx.writeSet.getD 0 (-1)) = some pg
          ∧ IsSafePage pg op false = true) →
      ctx2.headerHeld = false →
        ∃ pg, m.find (ctx2.writeSet.getD 0 (-1)) = some pg
          ∧ IsSafePage pg op false = true) := by
  intro fuel
  induction fuel with
  | zero =>
    intro ctx ctx2 h
    rw [FindLeafPage] at h
    exact Except.noConfusion h
  | succ n ih =>
    intro ctx ctx2 h
    cases op with
    | Search =>
      rw [FindLeafPage] at h
      cases hlast : ctx.readSet.getLast? with
      | none => rw [hlast] at h; exact Except.noConfusion h
      | some pid =>
        rw [hlast] at h
        dsimp only at h
        cases hfp : m.find pid with
        | none => rw [hfp] at h; exact Except.noConfusion h
        | some pg =>
          rw [hfp] at h
          cases pg with
          | leaf lp =>
            injection h with h2
            subst h2
            exact ⟨rfl, fun hi => hi⟩
          | internal nd =>
            dsimp only at h
            obtain ⟨hh, hp⟩ := ih _ _ h
            exact ⟨hh, fun hinv h2 => hp hinv h2⟩
    | Insertion =>
      rw [FindLeafPage] at h
      cases hlast : ctx.writeSet.getLast? with
      | none => rw [hlast] at h; exact Except.noConfusion h
      | some pid =>
        rw [hlast] at h
        dsimp only at h
        cases hfp : m.find pid with
        | none => rw [hfp] at h; exact Except.noConfusion h
        | some pg =>
          rw [hfp] at h
          cases pg with
          | leaf lp =>
            injection h with h2
            subst h2
            exact ⟨rfl, fun hi => hi⟩
          | internal nd =>
            dsimp only at h
            cases hfc : m.find (nd.valueAt (BinaryFindInternal nd key).toNat) with
            | none => rw [hfc] at h; exact Except.noConfusion h
            | some childPg =>
              rw [hfc] at h
              dsimp only at h
              split at h
              · rename_i hsafe
                obtain ⟨hh, hp⟩ := ih _ _ h
                refine ⟨hh, fun hinv h2 => hp (fun hf => ?_) h2⟩
                exact ⟨childPg, hfc, hsafe⟩
              · rename_i hunsafe
                obtain ⟨hh, hp⟩ := ih _ _ h
                refine ⟨hh, fun hinv h2 => hp (fun hf => ?_) h2⟩
                have hne : ctx.writeSet ≠ [] := by
                  intro he
                  rw [he] at hlast
                  exact Option.noConfusion hlast
                have hlp : 0 < ctx.writeSet.length := List.length_pos.mpr hne
                obtain ⟨pg2, hpg2, hs2⟩ := hinv hf
                refine ⟨pg2, ?_, hs2⟩
                rw [show ({ ctx with writeSet := ctx.writeSet ++
                    [nd.valueAt (BinaryFindInternal nd key).toNat] } : Context).writeSet
                  = ctx.writeSet ++ [nd.valueAt (BinaryFindInternal nd key).toNat] from rfl]
                rw [List.getD_append _ _ _ _ hlp]
                exact hpg2
      intro hh
      cases hh
    | Removal =>
      rw [FindLeafPage] at h
      cases hlast : ctx.writeSet.getLast? with
      | none => rw [hlast] at h; exact Except.noConfusion h
      | some pid =>
        rw [hlast] at h
        dsimp only at h
        cases hfp : m.find pid with
        | none => rw [hfp] at h; exact Except.noConfusion h
        | some pg =>
          rw [hfp] at h
          cases pg with
          | leaf lp =>
            injection h with h2
            subst h2
            exact ⟨rfl, fun hi => hi⟩
          | internal nd =>
            dsimp only at h
            cases hfc : m.find (nd.valueAt (BinaryFindInternal nd key).toNat) with
            | none => rw [hfc] at h; exact Except.noConfusion h
            | some childPg =>
              rw [hfc] at h
              dsimp only at h
              split at h
              · rename_i hsafe
                obtain ⟨hh, hp⟩ := ih _ _ h
                refine ⟨hh, fun hinv h2 => hp (fun hf => ?_) h2⟩
                exact ⟨childPg, hfc, hsafe⟩
              · rename_i hunsafe
                obtain ⟨hh, hp⟩ := ih _ _ h
                refine ⟨hh, fun hinv h2 => hp (fun hf => ?_) h2⟩
                have hne : ctx.writeSet ≠ [] := by
                  intro he
                  rw [he] at hlast
                  exact Option.noConfusion hlast
                have hlp : 0 < ctx.writeSet.length := List.length_pos.mpr hne
                obtain ⟨pg2, hpg2, hs2⟩ := hinv hf
                refine ⟨pg2, ?_, hs2⟩
                rw [show ({ ctx with writeSet := ctx.writeSet ++
                    [nd.valueAt (BinaryFindInternal nd key).toNat] } : Context).writeSet
                  = ctx.writeSet ++ [nd.valueAt (BinaryFindInternal nd key).toNat] from rfl]
                rw [List.getD_append _ _ _ _ hlp]
                exact hpg2
      intro hh
      cases hh

/-! ## Toward C3: reader-descent characterization and the duplicate-key
behaviour of `Insert`

`spath` is the pure page-id trace of the `Search` descent; `GetValue` is
characterized in both directions through it.  `insert_present_noop` and
`insert_absent_flag` settle the flag half of the insert/lookup algebra:
inserting a present key is a no-op returning `false`, and a completed
insert of an absent key returns `true`. -/

/-- The pure reader descent: the page ids visited by the `Search` descent
for `key` from `pid`, ending at the reached leaf. -/
def spath (m : Machine) (key : Nat) (pid : PageId) : Nat → Option (List PageId)
  | 0 => none
  | fuel + 1 =>
    match m.find pid with
    | some (.leaf _) => some [pid]
    | some (.internal nd) =>
        match spath m key (nd.valueAt (BinaryFindInternal nd key).toNat) fuel with
        | some l => some (pid :: l)
        | none => none
    | none => none

theorem spath_mono (m : Machine) (key : Nat) :
    ∀ (f f' : Nat) (pid : PageId) (l : List PageId), f ≤ f' →
    spath m key pid f = some l → spath m key pid f' = some l := by
  intro f
  induction f with
  | zero =>
    intro f' pid l _ h
    rw [spath] at h
    exact Option.noConfusion h
  | succ n ih =>
    intro f' pid l hf h
    rw [spath] at h
    cases f' with
    | zero => omega
    | succ n' =>
      rw [spath]
      cases hfp : m.find pid with
      | none => rw [hfp] at h; exact Option.noConfusion h
      | some pg =>
        rw [hfp] at h
        cases pg with
        | leaf lp => exact h
        | internal nd =>
          dsimp only at h ⊢
          cases hrec : spath m key (nd.valueAt (BinaryFindInternal nd key).toNat) n with
          | none => rw [hrec] at h; exact Option.noConfusion h
          | some l2 =>
            rw [hrec] at h
            rw [ih n' _ _ (by omega) hrec]
            exact h

theorem spath_frame (m M : Machine) (key : Nat) :
    ∀ (f : Nat) (pid : PageId) (l : List PageId),
    spath m key pid f = some l →
    (∀ q ∈ l, M.find q = m.find q) →
    spath M key pid f = some l := by
  intro f
  induction f with
  | zero =>
    intro pid l h
    rw [spath] at h
    exact absurd h (by simp)
  | succ n ih =>
    intro pid l h hag
    rw [spath] at h ⊢
    cases hfp : m.find pid with
    | none => rw [hfp] at h; exact Option.noConfusion h
    | some pg =>
      rw [hfp] at h
      cases pg with
      | leaf lp =>
        injection h with h2
        subst h2
        rw [hag pid (List.mem_singleton_self pid), hfp]
      | internal nd =>
        dsimp only at h
        cases hrec : spath m key (nd.valueAt (BinaryFindInternal nd key).toNat) n with
        | none => rw [hrec] at h; exact Option.noConfusion h
        | some l2 =>
          rw [hrec] at h
          injection h with h2
          subst h2
          have hped : M.find pid = some (.internal nd) := by
            rw [hag pid (List.mem_cons_self pid l2), hfp]
          rw [hped]
          dsimp only
          rw [ih _ _ hrec (fun q hq => hag q (List.mem_cons_of_mem pid hq))]

/-- The last element of a successful reader descent is a leaf. -/
theorem spath_last (m : Machine) (key : Nat) :
    ∀ (f : Nat) (pid : PageId) (l : List PageId),
    spath m key pid f = some l →
    ∃ pidL lp, l.getLast? = some pidL ∧ m.find pidL = some (.leaf lp) := by
  intro f
  induction f with
  | zero =>
    intro pid l h
    rw [spath] at h
    exact Option.noConfusion h
  | succ n ih =>
    intro pid l h
    rw [spath] at h
    cases hfp : m.find pid with
    | none => rw [hfp] at h; exact Option.noConfusion h
    | some pg =>
      rw [hfp] at h
      cases pg with
      | leaf lp =>
        injection h with h2
        subst h2
        exact ⟨pid, lp, rfl, hfp⟩
      | internal nd =>
        dsimp only at h
        cases hrec : spath m key (nd.valueAt (BinaryFindInternal nd key).toNat) n with
        | none => rw [hrec] at h; exact Option.noConfusion h
        | some l2 =>
          rw [hrec] at h
          injection h with h2
          subst h2
          obtain ⟨pidL, lp, hl, hf⟩ := ih _ _ hrec
          refine ⟨pidL, lp, ?_, hf⟩
          rw [List.getLast?_cons, hl]
          cases l2 with
          | nil => exact Option.noConfusion hl
          | cons a t => rfl

theorem binaryFindLeaf_exact (lp : LeafPage) (k : Nat)
    (hsort : ∀ a b, a < b → b < lp.size → lp.keyAt a < lp.keyAt b)
    (i : Nat) (hi : i < lp.size) (hk : lp.keyAt i = k) :
    BinaryFindLeaf lp k = (i : Int) := by
  rcases binaryFindLeaf_spec lp k hsort with ⟨_, hall⟩ | ⟨i2, h1, h2, h3, h4⟩
  · exact absurd (hall i hi) (by omega)
  · have hle : i ≤ i2 := h4 i hi (le_of_eq hk)
    have hge : i2 ≤ i := by
      by_contra hgt
      exact absurd (hsort i i2 (by omega) h2) (by omega)
    have : i = i2 := by omega
    subst this
    exact h1

theorem binaryFindInternal_exact (nd : InternalPage) (k : Nat)
    (hsort : ∀ a b, 1 ≤ a → a < b → b < nd.size → nd.keyAt a < nd.keyAt b)
    (s : Nat) (hs : s < nd.size)
    (hlo : 1 ≤ s → nd.keyAt s ≤ k)
    (hhi : s + 1 < nd.size → k < nd.keyAt (s + 1)) :
    BinaryFindInternal nd k = (s : Int) := by
  obtain ⟨i, h1, h2, h3, h4⟩ := binaryFindInternal_spec nd k hsort
  have hle : s ≤ i := by
    by_cases hs0 : s = 0
    · omega
    · by_contra hgt
      exact absurd (h4 s (by omega) hs) (by push_neg; exact hlo (by omega))
  have hge : i ≤ s := by
    by_contra hgt
    have hik : nd.keyAt i ≤ k := h3 (by omega)
    have hcmp : k < nd.keyAt i := by
      rcases Nat.eq_or_lt_of_le (by omega : s + 1 ≤ i) with he | hlt
      · rw [← he]
        exact hhi (by rw [he]; rcases h2 with ⟨_, h⟩ | h; omega; omega)
      · calc k < nd.keyAt (s + 1) := by
              refine hhi ?_
              rcases h2 with ⟨_, h⟩ | h
              · omega
              · omega
          _ ≤ nd.keyAt i := le_of_lt (hsort (s + 1) i (by omega) hlt (by
              rcases h2 with ⟨_, h⟩ | h
              · omega
              · omega))
    omega
  have : i = s := by omega
  subst this
  exact h1

theorem leafInsertAt_getD (lp : LeafPage) (i k v : Nat) (j : Nat) :
    (leafInsertAt lp i k v).slots.getD j (0, 0)
      = if j = i then (k, v)
        else if i < j ∧ j ≤ lp.size + 1 then lp.slots.getD (j - 1) (0, 0)
        else lp.slots.getD j (0, 0) := by
  show (setSlot (shiftUpLoop (0, 0) lp.slots i (lp.size + 1)) i (k, v)
      (0, 0)).getD j (0, 0) = _
  rw [setSlot_getD]
  by_cases hj : j = i
  · rw [if_pos hj, if_pos hj]
  · rw [if_neg hj, if_neg hj]
    rw [shiftUpLoop, shiftUpAux_getD _ _ _ _ _ (by omega)]
    by_cases h2 : i < j ∧ j ≤ lp.size + 1
    · rw [if_pos (by omega), if_pos h2]
    · rw [if_neg (by omega), if_neg h2]

theorem leafInsertAt_keyAt (lp : LeafPage) (i k v : Nat) (j : Nat) :
    (leafInsertAt lp i k v).keyAt j
      = if j = i then k
        else if i < j ∧ j ≤ lp.size + 1 then lp.keyAt (j - 1)
        else lp.keyAt j := by
  rw [LeafPage.keyAt, leafInsertAt_getD]
  by_cases hj : j = i
  · rw [if_pos hj, if_pos hj]
  · rw [if_neg hj, if_neg hj]
    by_cases h2 : i < j ∧ j ≤ lp.size + 1
    · rw [if_pos h2, if_pos h2]
      rfl
    · rw [if_neg h2, if_neg h2]
      rfl

theorem leafInsertAt_valueAt (lp : LeafPage) (i k v : Nat) (j : Nat) :
    (leafInsertAt lp i k v).valueAt j
      = if j = i then v
        else if i < j ∧ j ≤ lp.size + 1 then lp.valueAt (j - 1)
        else lp.valueAt j := by
  rw [LeafPage.valueAt, leafInsertAt_getD]
  by_cases hj : j = i
  · rw [if_pos hj, if_pos hj]
  · rw [if_neg hj, if_neg hj]
    by_cases h2 : i < j ∧ j ≤ lp.size + 1
    · rw [if_pos h2, if_pos h2]
      rfl
    · rw [if_neg h2, if_neg h2]
      rfl

theorem inserted_leaf_facts (lp : LeafPage) (k v : Nat)
    (hsort : ∀ a b, a < b → b < lp.size → lp.keyAt a < lp.keyAt b)
    (habs : BinaryFindLeaf lp k = -1
      ∨ cmp (lp.keyAt (BinaryFindLeaf lp k).toNat) k ≠ 0) :
    (BinaryFindLeaf lp k + 1).toNat ≤ lp.size
    ∧ (∀ a b, a < b → b < lp.size + 1 →
        (leafInsertAt lp (BinaryFindLeaf lp k + 1).toNat k v).keyAt a
          < (leafInsertAt lp (BinaryFindLeaf lp k + 1).toNat k v).keyAt b)
    ∧ (leafInsertAt lp (BinaryFindLeaf lp k + 1).toNat k v).keyAt
        (BinaryFindLeaf lp k + 1).toNat = k
    ∧ (leafInsertAt lp (BinaryFindLeaf lp k + 1).toNat k v).valueAt
        (BinaryFindLeaf lp k + 1).toNat = v := by
  rcases binaryFindLeaf_spec lp k hsort with ⟨hm1, hall⟩ | ⟨i, h1, h2, h3, h4⟩
  · rw [hm1]
    have hpos : ((-1 : Int) + 1).toNat = 0 := by decide
    rw [hpos]
    refine ⟨by omega, ?_, ?_, ?_⟩
    · intro a b hab hb
      rw [leafInsertAt_keyAt, leafInsertAt_keyAt]
      by_cases ha0 : a = 0
      · rw [if_pos ha0, if_neg (by omega), if_pos (by omega)]
        exact hall (b - 1) (by omega)
      · rw [if_neg ha0, if_pos (by omega), if_neg (by omega), if_pos (by omega)]
        exact hsort (a - 1) (b - 1) (by omega) (by omega)
    · rw [leafInsertAt_keyAt, if_pos rfl]
    · rw [leafInsertAt_valueAt, if_pos rfl]
  · have hne : lp.keyAt i ≠ k := by
      rcases habs with hm | hc
      · rw [h1] at hm
        exact absurd hm (by omega)
      · rw [h1] at hc
        intro he
        apply hc
        have : ((i : Int)).toNat = i := by omega
        rw [this, he, cmp, if_neg (by omega), if_neg (by omega)]
    have hlt : lp.keyAt i < k := by omega
    rw [h1]
    have hpos : ((i : Int) + 1).toNat = i + 1 := by omega
    rw [hpos]
    have habove : ∀ j, i < j → j < lp.size → k < lp.keyAt j := by
      intro j hj1 hj2
      by_contra hle
      exact absurd (h4 j hj2 (by omega)) (by omega)
    refine ⟨by omega, ?_, ?_, ?_⟩
    · intro a b hab hb
      rw [leafInsertAt_keyAt, leafInsertAt_keyAt]
      by_cases hbi : b = i + 1
      · rw [if_pos hbi, if_neg (by omega)]
        rw [if_neg (by omega)]
        rcases Nat.eq_or_lt_of_le (by omega : a ≤ i) with he | hlt2
        · rw [he]
          exact hlt
        · exact lt_trans (hsort a i hlt2 h2) hlt
      · rw [if_neg hbi]
        by_cases hb2 : i + 1 < b ∧ b ≤ lp.size + 1
        · rw [if_pos hb2]
          by_cases hai : a = i + 1
          · rw [if_pos hai]
            exact habove (b - 1) (by omega) (by omega)
          · rw [if_neg hai]
            by_cases ha2 : i + 1 < a ∧ a ≤ lp.size + 1
            · rw [if_pos ha2]
              exact hsort (a - 1) (b - 1) (by omega) (by omega)
            · rw [if_neg ha2]
              exact hsort a (b - 1) (by omega) (by omega)
        · rw [if_neg hb2, if_neg (by omega), if_neg (by omega)]
          exact hsort a b hab (by omega)
    · rw [leafInsertAt_keyAt, if_pos rfl]
    · rw [leafInsertAt_valueAt, if_pos rfl]

theorem nodup_subset_length {l l2 : List PageId} (h : l.Nodup)
    (hs : l ⊆ l2) : l.length ≤ l2.length :=
  calc l.length = l.toFinset.card := (List.toFinset_card_of_nodup h).symm
    _ ≤ l2.toFinset.card := Finset.card_le_card
        (fun x hx => List.mem_toFinset.mpr (hs (List.mem_toFinset.mp hx)))
    _ ≤ l2.length := l2.toFinset_card_le

theorem spath_min_fuel (m : Machine) (key : Nat) :
    ∀ (f : Nat) (pid : PageId) (l : List PageId),
    spath m key pid f = some l → spath m key pid l.length = some l := by
  intro f
  induction f with
  | zero =>
    intro pid l h
    rw [spath] at h
    exact Option.noConfusion h
  | succ n ih =>
    intro pid l h
    rw [spath] at h
    cases hfp : m.find pid with
    | none => rw [hfp] at h; exact Option.noConfusion h
    | some pg =>
      rw [hfp] at h
      cases pg with
      | leaf lp =>
        injection h with h2
        subst h2
        show spath m key pid (0 + 1) = some [pid]
        rw [spath, hfp]
      | internal nd =>
        dsimp only at h
        cases hrec : spath m key (nd.valueAt (BinaryFindInternal nd key).toNat) n with
        | none => rw [hrec] at h; exact Option.noConfusion h
        | some l2 =>
          rw [hrec] at h
          injection h with h2
          subst h2
          show spath m key pid (l2.length + 1) = _
          rw [spath, hfp]
          dsimp only
          rw [ih _ _ hrec]

theorem spath_mem_pages (m : Machine) (key : Nat) :
    ∀ (f : Nat) (pid : PageId) (l : List PageId),
    spath m key pid f = some l →
    ∀ q ∈ l, q ∈ m.pages.map Prod.fst := by
  intro f
  induction f with
  | zero =>
    intro pid l h
    rw [spath] at h
    exact Option.noConfusion h
  | succ n ih =>
    intro pid l h q hq
    rw [spath] at h
    cases hfp : m.find pid with
    | none => rw [hfp] at h; exact Option.noConfusion h
    | some pg =>
      have hpidmem : pid ∈ m.pages.map Prod.fst := by
        rw [Machine.find] at hfp
        cases hfind : m.pages.find? (fun e => e.1 = pid) with
        | none => rw [hfind] at hfp; exact Option.noConfusion hfp
        | some e =>
          have hmem := List.mem_of_find?_eq_some hfind
          have hpe := List.find?_some hfind
          simp only [decide_eq_true_eq] at hpe
          rw [← hpe]
          exact List.mem_map_of_mem Prod.fst hmem
      rw [hfp] at h
      cases pg with
      | leaf lp =>
        injection h with h2
        subst h2
        rw [List.mem_singleton] at hq
        subst hq
        exact hpidmem
      | internal nd =>
        dsimp only at h
        cases hrec : spath m key (nd.valueAt (BinaryFindInternal nd key).toNat) n with
        | none => rw [hrec] at h; exact Option.noConfusion h
        | some l2 =>
          rw [hrec] at h
          injection h with h2
          subst h2
          rcases List.mem_cons.mp hq with he | hm2
          · subst he
            exact hpidmem
          · exact ih _ _ hrec q hm2

theorem findLeafSearch_spath (m : Machine) (key : Nat) :
    ∀ (fuel : Nat) (ctx ctx' : Context) (pid : PageId),
    ctx.readSet.getLast? = some pid →
    FindLeafPage m key .Search ctx fuel = .ok ctx' →
    ∃ l, spath m key pid fuel = some l
      ∧ ctx'.readSet.getLast? = l.getLast? := by
  intro fuel
  induction fuel with
  | zero =>
    intro ctx ctx' pid _ h
    rw [FindLeafPage] at h
    exact Except.noConfusion h
  | succ n ih =>
    intro ctx ctx' pid hlast h
    rw [FindLeafPage, hlast] at h
    dsimp only at h
    cases hfp : m.find pid with
    | none => rw [hfp] at h; exact Except.noConfusion h
    | some pg =>
      rw [hfp] at h
      cases pg with
      | leaf lp =>
        injection h with h2
        subst h2
        refine ⟨[pid], ?_, by rw [hlast]; rfl⟩
        rw [spath, hfp]
      | internal nd =>
        dsimp only at h
        obtain ⟨l2, hsp, hlast2⟩ := ih _ _
          (nd.valueAt (BinaryFindInternal nd key).toNat) (by simp) h
        refine ⟨pid :: l2, ?_, ?_⟩
        · rw [spath, hfp]
          dsimp only
          rw [hsp]
        · rw [hlast2, List.getLast?_cons]
          cases hl2 : l2 with
          | nil =>
            rw [hl2] at hsp
            cases n with
            | zero => rw [spath] at hsp; exact Option.noConfusion hsp
            | succ n2 =>
              rw [spath] at hsp
              cases hfp2 : m.find (nd.valueAt (BinaryFindInternal nd key).toNat) with
              | none => rw [hfp2] at hsp; exact Option.noConfusion hsp
              | some pg2 =>
                rw [hfp2] at hsp
                cases pg2 with
                | leaf lp2 => injection hsp with h3; exact absurd h3 (by simp)
                | internal nd2 =>
                  dsimp only at hsp
                  cases hrec2 : spath m key (nd2.valueAt (BinaryFindInternal nd2 key).toNat) n2 with
                  | none => rw [hrec2] at hsp; exact Option.noConfusion hsp
                  | some l3 =>
                    rw [hrec2] at hsp
                    injection hsp with h3
                    exact absurd h3 (by simp)
          | cons a t => rfl

theorem spath_findLeafSearch (M : Machine) (key : Nat) :
    ∀ (fuel : Nat) (pid : PageId) (l : List PageId) (ctx : Context),
    spath M key pid fuel = some l →
    ctx.readSet.getLast? = some pid →
    ∃ ctx', FindLeafPage M key .Search ctx fuel = .ok ctx'
      ∧ ctx'.readSet.getLast? = l.getLast? := by
  intro fuel
  induction fuel with
  | zero =>
    intro pid l ctx h _
    rw [spath] at h
    exact Option.noConfusion h
  | succ n ih =>
    intro pid l ctx h hlast
    rw [spath] at h
    cases hfp : M.find pid with
    | none => rw [hfp] at h; exact Option.noConfusion h
    | some pg =>
      rw [hfp] at h
      cases pg with
      | leaf lp =>
        injection h with h2
        subst h2
        refine ⟨ctx, ?_, by rw [hlast]; rfl⟩
        rw [FindLeafPage, hlast]
        dsimp only
        rw [hfp]
      | internal nd =>
        dsimp only at h
        cases hrec : spath M key (nd.valueAt (BinaryFindInternal nd key).toNat) n with
        | none => rw [hrec] at h; exact Option.noConfusion h
        | some l2 =>
          rw [hrec] at h
          injection h with h2
          subst h2
          obtain ⟨ctx', hf, hl⟩ := ih _ _
            { ctx with readSet :=
                ctx.readSet ++ [nd.valueAt (BinaryFindInternal nd key).toNat] }
            hrec (by simp)
          refine ⟨ctx', ?_, ?_⟩
          · rw [FindLeafPage, hlast]
            dsimp only
            rw [hfp]
            exact hf
          · rw [hl, List.getLast?_cons]
            cases hl2 : l2 with
            | nil =>
              rw [hl2] at hrec
              cases n with
              | zero => rw [spath] at hrec; exact Option.noConfusion hrec
              | succ n2 =>
                rw [spath] at hrec
                cases hfp2 : M.find (nd.valueAt (BinaryFindInternal nd key).toNat) with
                | none => rw [hfp2] at hrec; exact Option.noConfusion hrec
                | some pg2 =>
                  rw [hfp2] at hrec
                  cases pg2 with
                  | leaf lp2 => injection hrec with h3; exact absurd h3 (by simp)
                  | internal nd2 =>
                    dsimp only at hrec
                    cases hrec2 : spath M key (nd2.valueAt (BinaryFindInternal nd2 key).toNat) n2 with
                    | none => rw [hrec2] at hrec; exact Option.noConfusion hrec
                    | some l3 =>
                      rw [hrec2] at hrec
                      injection hrec with h3
                      exact absurd h3 (by simp)
            | cons a t => rfl

theorem spath_length_le (m : Machine) (key : Nat) :
    ∀ (f : Nat) (pid : PageId) (l : List PageId),
    spath m key pid f = some l → l.length ≤ f := by
  intro f
  induction f with
  | zero =>
    intro pid l h
    rw [spath] at h
    exact Option.noConfusion h
  | succ n ih =>
    intro pid l h
    rw [spath] at h
    cases hfp : m.find pid with
    | none => rw [hfp] at h; exact Option.noConfusion h
    | some pg =>
      rw [hfp] at h
      cases pg with
      | leaf lp =>
        injection h with h2
        subst h2
        simp
      | internal nd =>
        dsimp only at h
        cases hrec : spath m key (nd.valueAt (BinaryFindInternal nd key).toNat) n with
        | none => rw [hrec] at h; exact Option.noConfusion h
        | some l2 =>
          rw [hrec] at h
          injection h with h2
          subst h2
          have := ih _ _ hrec
          simp only [List.length_cons]
          omega

theorem getValue_of_spath (M : Machine) (key : Nat) (l : List PageId)
    (F : Nat) (pidL : PageId) (lp : LeafPage)
    (hroot : M.rootId ≠ INVALID_PAGE_ID)
    (hsp : spath M key M.rootId F = some l)
    (hlen0 : l.length ≤ M.pages.length + 1)
    (hlast : l.getLast? = some pidL)
    (hfl : M.find pidL = some (.leaf lp)) :
    GetValue M key = .ok
      (if BinaryFindLeaf lp key = -1
          ∨ cmp (lp.keyAt (BinaryFindLeaf lp key).toNat) key ≠ 0 then none
        else some (lp.valueAt (BinaryFindLeaf lp key).toNat)) := by
  have hmin := spath_min_fuel M key F M.rootId l hsp
  have hsp2 : spath M key M.rootId (M.pages.length + 1) = some l :=
    spath_mono M key l.length (M.pages.length + 1) M.rootId l (by omega) hmin
  obtain ⟨ctx', hf, hl⟩ := spath_findLeafSearch M key (M.pages.length + 1)
    M.rootId l
    { headerHeld := false, rootPageId := M.rootId,
      readSet := [M.rootId], writeSet := [] } hsp2 rfl
  rw [GetValue, if_neg hroot]
  dsimp only
  rw [hf, exceptBindOk, hl, hlast]
  dsimp only
  rw [hfl]
  dsimp only
  by_cases hc : BinaryFindLeaf lp key = -1
      ∨ cmp (lp.keyAt (BinaryFindLeaf lp key).toNat) key ≠ 0
  · rw [if_pos hc, if_pos hc]
  · rw [if_neg hc, if_neg hc]

theorem getValue_to_spath (m : Machine) (key : Nat) (r : Option Nat)
    (hroot : m.rootId ≠ INVALID_PAGE_ID)
    (h : GetValue m key = .ok r) :
    ∃ l pidL lp, spath m key m.rootId (m.pages.length + 1) = some l
      ∧ l.getLast? = some pidL
      ∧ m.find pidL = some (.leaf lp)
      ∧ r = (if BinaryFindLeaf lp key = -1
            ∨ cmp (lp.keyAt (BinaryFindLeaf lp key).toNat) key ≠ 0 then none
          else some (lp.valueAt (BinaryFindLeaf lp key).toNat)) := by
  rw [GetValue, if_neg hroot] at h
  dsimp only at h
  obtain ⟨ctx, hctx, h⟩ := exceptBind_ok_elim h
  obtain ⟨l, hsp, hl⟩ := findLeafSearch_spath m key (m.pages.length + 1)
    _ ctx m.rootId (by rfl) hctx
  obtain ⟨pidL, lp, hlast, hfl⟩ := spath_last m key (m.pages.length + 1)
    m.rootId l hsp
  rw [hl, hlast] at h
  dsimp only at h
  rw [hfl] at h
  dsimp only at h
  refine ⟨l, pidL, lp, hsp, hlast, hfl, ?_⟩
  by_cases hc : BinaryFindLeaf lp key = -1
      ∨ cmp (lp.keyAt (BinaryFindLeaf lp key).toNat) key ≠ 0
  · rw [if_pos hc] at h ⊢
    injection h with h2
    exact h2.symm
  · rw [if_neg hc] at h ⊢
    injection h with h2
    exact h2.symm

theorem insert_present_noop (m : Machine) (key v0 newv : Nat)
    (h : GetValue m key = .ok (some v0)) :
    Insert m key newv = .ok (m, false) := by
  by_cases hroot : m.rootId = INVALID_PAGE_ID
  · rw [GetValue, if_pos hroot] at h
    injection h with h2
    exact Option.noConfusion h2
  · rw [GetValue, if_neg hroot] at h
    dsimp only at h
    obtain ⟨ctxR, hd, h⟩ := exceptBind_ok_elim h
    obtain ⟨rootPg, hfr⟩ := search_ok_find m key (m.pages.length + 1) _ ctxR
      m.rootId (by rfl) hd
    cases hlast : ctxR.readSet.getLast? with
    | none => rw [hlast] at h; exact Except.noConfusion h
    | some pid =>
      rw [hlast] at h
      dsimp only at h
      cases hfind : m.find pid with
      | none => rw [hfind] at h; exact Except.noConfusion h
      | some pg =>
        rw [hfind] at h
        cases pg with
        | internal nd => exact Except.noConfusion h
        | leaf lp =>
          dsimp only at h
          by_cases hcond : (BinaryFindLeaf lp key = -1
              ∨ cmp (lp.keyAt (BinaryFindLeaf lp key).toNat) key ≠ 0)
          · rw [if_pos hcond] at h
            injection h with h2
            exact Option.noConfusion h2
          · rw [Insert, if_neg hroot, hfr]
            dsimp only
            have hWl : ((if IsSafePage rootPg .Insertion true = true then
                { headerHeld := false, rootPageId := m.rootId, readSet := [],
                  writeSet := [m.rootId] }
                else
                { headerHeld := true, rootPageId := m.rootId, readSet := [],
                  writeSet := [m.rootId] }) : Context).writeSet.getLast?
                = some m.rootId := by
              by_cases hs : IsSafePage rootPg .Insertion true = true
              · rw [if_pos hs]
                rfl
              · rw [if_neg hs]
                rfl
            obtain ⟨ctxW, hw1, hw2⟩ := findLeafSearchToInsertion m key
              (m.pages.length + 1) _ _ ctxR m.rootId (by rfl) hWl hd
            rw [hw1, exceptBindOk, hw2, hlast]
            dsimp only
            rw [hfind]
            dsimp only
            rw [if_pos (by push_neg at hcond; exact hcond)]

theorem insert_absent_flag (m : Machine) (key v : Nat) (m2 : Machine) (b : Bool)
    (h : GetValue m key = .ok none)
    (hins : Insert m key v = .ok (m2, b)) : b = true := by
  by_cases hroot : m.rootId = INVALID_PAGE_ID
  · rw [Insert, if_pos hroot] at hins
    dsimp only [Machine.alloc] at hins
    injection hins with h2
    injection h2 with ha hb
    exact hb.symm
  · rw [GetValue, if_neg hroot] at h
    dsimp only at h
    obtain ⟨ctxR, hd, h⟩ := exceptBind_ok_elim h
    obtain ⟨rootPg, hfr⟩ := search_ok_find m key (m.pages.length + 1) _ ctxR
      m.rootId (by rfl) hd
    cases hlast : ctxR.readSet.getLast? with
    | none => rw [hlast] at h; exact Except.noConfusion h
    | some pid =>
      rw [hlast] at h
      dsimp only at h
      cases hfind : m.find pid with
      | none => rw [hfind] at h; exact Except.noConfusion h
      | some pg =>
        rw [hfind] at h
        cases pg with
        | internal nd => exact Except.noConfusion h
        | leaf lp =>
          dsimp only at h
          by_cases hcond : (BinaryFindLeaf lp key = -1
              ∨ cmp (lp.keyAt (BinaryFindLeaf lp key).toNat) key ≠ 0)
          · rw [Insert, if_neg hroot, hfr] at hins
            dsimp only at hins
            have hWl : ((if IsSafePage rootPg .Insertion true = true then
                { headerHeld := false, rootPageId := m.rootId, readSet := [],
                  writeSet := [m.rootId] }
                else
                { headerHeld := true, rootPageId := m.rootId, readSet := [],
                  writeSet := [m.rootId] }) : Context).writeSet.getLast?
                = some m.rootId := by
              by_cases hs : IsSafePage rootPg .Insertion true = true
              · rw [if_pos hs]
                rfl
              · rw [if_neg hs]
                rfl
            obtain ⟨ctxW, hw1, hw2⟩ := findLeafSearchToInsertion m key
              (m.pages.length + 1) _ _ ctxR m.rootId (by rfl) hWl hd
            rw [hw1, exceptBindOk, hw2, hlast] at hins
            dsimp only at hins
            rw [hfind] at hins
            dsimp only at hins
            rw [if_neg (by
              intro hdup
              rcases hcond with hc1 | hc2
              · exact hdup.1 hc1
              · exact hc2 hdup.2)] at hins
            split at hins
            · injection hins with h2
              injection h2 with ha hb
              exact hb.symm
            · obtain ⟨m3, hip, hins⟩ := exceptBind_ok_elim hins
              injection hins with h2
              injection h2 with ha hb
              exact hb.symm
          · rw [if_neg hcond] at h
            injection h with h2
            exact Option.noConfusion h2


end BPlusTree
